import Mathlib

/-!
Job iteration layer of the scheduler (`internal/scheduler/scheduling/jobiteration.go`)

A shallow embedding of the in-memory job repository and of the iterators of
`jobiteration.go`, followed by the properties proved about them.

Conventions of the embedding:

* a Go pointer `*T` that may be nil is `Option T`, with `none` for nil;
* a Go map read only through `m[k]` is a function from keys, a missing key
  reading as the zero value (the nil slice `[]`, or `none` for "not ok");
* a method with a pointer receiver is a function from the receiver's state
  to the returned value paired with the receiver's new state;
* a value of a Go interface is some state together with the method of its
  type;
* a loop that need not end takes a bound on the number of its passes and
  returns `none` when the bound is reached;
* the mutex `mu` carries no data and is left out of the sequential model; the
  lock discipline is stated on the sequence of accesses of each operation.
-/

namespace Scheduling

/-! ## External entities -/

/-- A Go `error` value. -/
structure GoError where
  msg : String
deriving DecidableEq, Repr

/-- The part of `jobdb.JobRun` that the file reads: `Pool()`. -/
structure Run where
  Pool : String
deriving DecidableEq, Repr

/-- The part of `jobdb.Job` that the file reads: `Id()`, `Queue()`, `Pools()`
and `LatestRun()` (nil when the job has no run). -/
structure Job where
  Id : String
  Queue : String
  Pools : List String
  LatestRun : Option Run
deriving DecidableEq, Repr

/-- A `schedulercontext.JobSchedulingContext`: the field `Job` that the file
reads, and `tag`, which stands for the rest of the value (two contexts that
wrap the same job are still two contexts). -/
structure JobSchedulingContext where
  tag : Nat
  Job : Job
deriving DecidableEq, Repr

/-- A `*schedulercontext.JobSchedulingContext`, `none` being nil. -/
abbrev JctxPtr := Option JobSchedulingContext

/-- What the file calls and does not define: the away-queue name derivation
`schedulercontext.CalculateAwayQueueName`, the job comparator
`Job.SchedulingOrderCompare`, and the library sort `slices.SortFunc`. -/
structure Externals where
  CalculateAwayQueueName : String → String
  SchedulingOrderCompare : Job → Job → Int
  SortFunc : (JobSchedulingContext → JobSchedulingContext → Int) →
    List JobSchedulingContext → List JobSchedulingContext

/-- Modelled from the spec: `armadaslices.Map` (package
`internal/common/slices`), which returns the slice of the images of the
elements of its argument, in the same order. -/
def armadaslices_Map {α β : Type} (list : List α) (fn : α → β) : List β :=
  list.map fn

/-! ## InMemoryJobIterator -/

/-- The struct `InMemoryJobIterator`: a cursor and the slice it replays. -/
structure InMemoryJobIterator where
  i : Nat
  jctxs : List JctxPtr
deriving DecidableEq, Repr

/-- The constructor `NewInMemoryJobIterator`: the cursor starts at zero. -/
def NewInMemoryJobIterator (jctxs : List JctxPtr) : InMemoryJobIterator :=
  { i := 0, jctxs := jctxs }

/-- The method `InMemoryJobIterator.Next`: the returned pair `(v, err)` and the
iterator afterwards. -/
def InMemoryJobIterator.Next (it : InMemoryJobIterator) :
    (JctxPtr × Option GoError) × InMemoryJobIterator :=
  if h : it.i ≥ it.jctxs.length then
    ((none, none), it)
  else
    let v := it.jctxs.get ⟨it.i, Nat.lt_of_not_le h⟩
    ((v, none), { it with i := it.i + 1 })

/-- The iterator after a number of calls to `Next`. -/
def InMemoryJobIterator.afterCalls (it : InMemoryJobIterator) : Nat → InMemoryJobIterator
  | 0 => it
  | n + 1 => (it.afterCalls n).Next.2

/-- The pair returned by the call number `n + 1` of `Next`. -/
def InMemoryJobIterator.nthNext (it : InMemoryJobIterator) (n : Nat) :
    JctxPtr × Option GoError :=
  (it.afterCalls n).Next.1

/-! ## InMemoryJobRepository -/

/-- The struct `InMemoryJobRepository`, without its mutex. -/
structure InMemoryJobRepository where
  jctxsByQueue : String → List JobSchedulingContext
  jctxsById : String → Option JobSchedulingContext
  currentPool : String

/-- The constructor `NewInMemoryJobRepository`: both maps empty. -/
def NewInMemoryJobRepository (pool : String) : InMemoryJobRepository :=
  { jctxsByQueue := fun _ => [], jctxsById := fun _ => none, currentPool := pool }

/-- The queue computed at the head of the loop body of `EnqueueMany`: the
home queue of the job, or its away queue when the job has a latest run in a
pool other than `currentPool`. -/
def targetQueue (E : Externals) (currentPool : String) (jctx : JobSchedulingContext) : String :=
  match jctx.Job.LatestRun with
  | some run =>
    if run.Pool ≠ currentPool then E.CalculateAwayQueueName jctx.Job.Queue
    else jctx.Job.Queue
  | none => jctx.Job.Queue

/-- One pass of the first loop of `EnqueueMany`, on the repository and the
keys of `updatedQueues` (a key is recorded once). -/
def enqueueOne (E : Externals) (acc : InMemoryJobRepository × List String)
    (jctx : JobSchedulingContext) : InMemoryJobRepository × List String :=
  let repo := acc.1
  let updatedQueues := acc.2
  let queue := targetQueue E repo.currentPool jctx
  ({ repo with
      jctxsByQueue := Function.update repo.jctxsByQueue queue (repo.jctxsByQueue queue ++ [jctx])
      jctxsById := Function.update repo.jctxsById jctx.Job.Id (some jctx) },
    if queue ∈ updatedQueues then updatedQueues else updatedQueues ++ [queue])

/-- The comparison function that `sortQueue` hands to `slices.SortFunc`: the
comparator of the jobs of the two contexts. -/
def jctxCompare (E : Externals) (a b : JobSchedulingContext) : Int :=
  E.SchedulingOrderCompare a.Job b.Job

/-- The method `sortQueue`: the slice of one queue sorted by the comparator of
the jobs. -/
def sortQueue (E : Externals) (repo : InMemoryJobRepository) (queue : String) :
    InMemoryJobRepository :=
  { repo with
      jctxsByQueue := Function.update repo.jctxsByQueue queue
        (E.SortFunc (jctxCompare E) (repo.jctxsByQueue queue)) }

/-- The method `EnqueueMany`: the first loop over the batch, then `sortQueue`
on every key of `updatedQueues`. -/
def EnqueueMany (E : Externals) (repo : InMemoryJobRepository)
    (jctxs : List JobSchedulingContext) : InMemoryJobRepository :=
  let acc := jctxs.foldl (enqueueOne E) (repo, [])
  acc.2.foldl (sortQueue E) acc.1

/-- The method `GetQueueJobIds`: the returned slice and the repository
afterwards. -/
def GetQueueJobIds (repo : InMemoryJobRepository) (queue : String) :
    List String × InMemoryJobRepository :=
  (armadaslices_Map (repo.jctxsByQueue queue) (fun jctx => jctx.Job.Id), repo)

/-- The method `GetExistingJobsByIds`: the returned slice and the repository
afterwards. -/
def GetExistingJobsByIds (repo : InMemoryJobRepository) (jobIds : List String) :
    List Job × InMemoryJobRepository :=
  (jobIds.foldl
    (fun rv jobId =>
      match repo.jctxsById jobId with
      | some jctx => rv ++ [jctx.Job]
      | none => rv)
    [], repo)

/-- The method `GetJobIterator`: an iterator over a copy of the slice of the
queue, and the repository afterwards. -/
def GetJobIterator (repo : InMemoryJobRepository) (queue : String) :
    InMemoryJobIterator × InMemoryJobRepository :=
  (NewInMemoryJobIterator ((repo.jctxsByQueue queue).map some), repo)

/-- The repository reached from a fresh one by a sequence of `EnqueueMany`
calls. -/
def enqueueAll (E : Externals) (pool : String) (batches : List (List JobSchedulingContext)) :
    InMemoryJobRepository :=
  batches.foldl (EnqueueMany E) (NewInMemoryJobRepository pool)

/-! ## Contracts of the external parts -/

/-- A comparison function is a total preorder: comparing one way gives `≤ 0`
exactly when comparing the other way gives `≥ 0`, any two elements compare
one way or the other, and `≤ 0` is transitive. -/
def IsTotalPreorder {α : Type} (cmp : α → α → Int) : Prop :=
  (∀ a b, cmp a b ≤ 0 ↔ cmp b a ≥ 0) ∧
  (∀ a b, cmp a b ≤ 0 ∨ cmp b a ≤ 0) ∧
  (∀ a b c, cmp a b ≤ 0 → cmp b c ≤ 0 → cmp a c ≤ 0)

/-- A sequence is non-decreasing under a comparison function: each element
compares `≤ 0` against every element after it. -/
def NonDecreasing {α : Type} (cmp : α → α → Int) (l : List α) : Prop :=
  l.Pairwise (fun a b => cmp a b ≤ 0)

/-- The part of the contract of `slices.SortFunc` that holds for every
comparison function: the result is a rearrangement of the argument. -/
def SortFuncPermutes (E : Externals) : Prop :=
  ∀ (cmp : JobSchedulingContext → JobSchedulingContext → Int) (l : List JobSchedulingContext),
    (E.SortFunc cmp l).Perm l

/-- The rest of the contract of `slices.SortFunc`: when the comparison function
is a total preorder, the result is in ascending order. -/
def SortFuncSorts (E : Externals) : Prop :=
  ∀ (cmp : JobSchedulingContext → JobSchedulingContext → Int), IsTotalPreorder cmp →
    ∀ l : List JobSchedulingContext, NonDecreasing cmp (E.SortFunc cmp l)

/-- A concrete choice of the external parts, for evaluating the definitions:
the away queue of `q` is `q-away`, jobs are ordered by the length of their
id, and the sort is insertion sort. -/
def exampleExternals : Externals :=
  { CalculateAwayQueueName := fun q => q ++ "-away"
    SchedulingOrderCompare := fun a b => (a.Id.length : Int) - (b.Id.length : Int)
    SortFunc := fun cmp l => l.insertionSort (fun a b => cmp a b ≤ 0) }

/-- A context with the given tag whose job has the given id, home queue and
latest run, and is eligible for no pool. -/
def mkJctx (tag : Nat) (id queue : String) (run : Option Run) : JobSchedulingContext :=
  { tag := tag, Job := { Id := id, Queue := queue, Pools := [], LatestRun := run } }

/-- A repository of pool `A` whose queue `p` holds a sequence that is not
sorted under the example comparator. -/
def unsortedRepository : InMemoryJobRepository :=
  { jctxsByQueue := fun q =>
      if q = "p" then [mkJctx 0 "xx" "p" none, mkJctx 1 "x" "p" none] else []
    jctxsById := fun _ => none
    currentPool := "A" }

/-- The last context of a batch whose job has the given id, if any. -/
def lastWithId (batch : List JobSchedulingContext) (x : String) : Option JobSchedulingContext :=
  batch.reverse.find? (fun c => decide (c.Job.Id = x))

/-! ## The repository with its slices in memory

`GetJobIterator` hands out `slices.Clone` of a slice that `EnqueueMany` later
appends to and sorts in place. Whether the iterator sees those writes depends
on which backing arrays the slices share, so this second embedding keeps the
slices as headers into a memory of backing arrays. -/

namespace Aliased

/-- A Go slice header: the backing array, the length and the capacity. The nil
slice is the header of zeros. -/
structure Slice where
  arr : Nat
  len : Nat
  cap : Nat
deriving DecidableEq, Repr

/-- The nil slice. -/
def nilSlice : Slice := { arr := 0, len := 0, cap := 0 }

/-- The backing arrays: the cells written so far of each array, and the next
array that an allocation returns. -/
structure Memory where
  arrays : Nat → List JobSchedulingContext
  next : Nat

/-- The elements `s[0], ..., s[len - 1]` of a slice. -/
def Memory.contents (m : Memory) (s : Slice) : List JobSchedulingContext :=
  (m.arrays s.arr).take s.len

/-- The Go builtin `append(s, x)`: within capacity the element is written in
place, in the backing array of `s`; otherwise the elements move to a new
array, whose spare capacity `slack` is up to the runtime. -/
def append (slack : Nat → Nat) (m : Memory) (s : Slice) (x : JobSchedulingContext) :
    Slice × Memory :=
  if s.len < s.cap then
    ({ s with len := s.len + 1 },
      { m with
        arrays := Function.update m.arrays s.arr
          ((m.arrays s.arr).take s.len ++ [x] ++ (m.arrays s.arr).drop (s.len + 1)) })
  else
    ({ arr := m.next, len := s.len + 1, cap := s.len + 1 + slack s.cap },
      { arrays := Function.update m.arrays m.next ((m.arrays s.arr).take s.len ++ [x])
        next := m.next + 1 })

/-- The library function `slices.Clone`: a slice without elements is cloned
without an array, any other into a new array. -/
def Clone (slack : Nat → Nat) (m : Memory) (s : Slice) : Slice × Memory :=
  if s.len = 0 then
    (nilSlice, m)
  else
    ({ arr := m.next, len := s.len, cap := s.len + slack 0 },
      { arrays := Function.update m.arrays m.next ((m.arrays s.arr).take s.len)
        next := m.next + 1 })

/-- The struct `InMemoryJobRepository`, its slices being headers. -/
structure InMemoryJobRepository where
  jctxsByQueue : String → Slice
  jctxsById : String → Option JobSchedulingContext
  currentPool : String

/-- The memory and the repository in it. -/
abbrev State := Memory × InMemoryJobRepository

/-- The constructor `NewInMemoryJobRepository`, in a memory without arrays
(array zero is never allocated). -/
def NewInMemoryJobRepository (pool : String) : State :=
  ({ arrays := fun _ => [], next := 1 },
    { jctxsByQueue := fun _ => nilSlice, jctxsById := fun _ => none, currentPool := pool })

/-- One pass of the first loop of `EnqueueMany`. -/
def enqueueOne (E : Externals) (slack : Nat → Nat) (acc : State × List String)
    (jctx : JobSchedulingContext) : State × List String :=
  let m := acc.1.1
  let repo := acc.1.2
  let updatedQueues := acc.2
  let queue := targetQueue E repo.currentPool jctx
  let r := append slack m (repo.jctxsByQueue queue) jctx
  ((r.2, { repo with
      jctxsByQueue := Function.update repo.jctxsByQueue queue r.1
      jctxsById := Function.update repo.jctxsById jctx.Job.Id (some jctx) }),
    if queue ∈ updatedQueues then updatedQueues else updatedQueues ++ [queue])

/-- The method `sortQueue`: `slices.SortFunc` sorts the elements of the slice
in place. -/
def sortQueue (E : Externals) (st : State) (queue : String) : State :=
  let s := st.2.jctxsByQueue queue
  ({ st.1 with
      arrays := Function.update st.1.arrays s.arr
        (E.SortFunc (jctxCompare E) ((st.1.arrays s.arr).take s.len) ++
          (st.1.arrays s.arr).drop s.len) }, st.2)

/-- The method `EnqueueMany`. -/
def EnqueueMany (E : Externals) (slack : Nat → Nat) (st : State)
    (jctxs : List JobSchedulingContext) : State :=
  let acc := jctxs.foldl (enqueueOne E slack) (st, [])
  acc.2.foldl (sortQueue E) acc.1

/-- The method `GetQueueJobIds`. -/
def GetQueueJobIds (st : State) (queue : String) : List String × State :=
  (armadaslices_Map (st.1.contents (st.2.jctxsByQueue queue)) (fun jctx => jctx.Job.Id), st)

/-- The struct `InMemoryJobIterator`, its slice being a header. -/
structure InMemoryJobIterator where
  i : Nat
  jctxs : Slice
deriving DecidableEq, Repr

/-- The constructor `NewInMemoryJobIterator`. -/
def NewInMemoryJobIterator (jctxs : Slice) : InMemoryJobIterator :=
  { i := 0, jctxs := jctxs }

/-- The method `InMemoryJobIterator.Next`, reading the element in the memory
of the time of the call. -/
def InMemoryJobIterator.Next (m : Memory) (it : InMemoryJobIterator) :
    (JctxPtr × Option GoError) × InMemoryJobIterator :=
  if it.i ≥ it.jctxs.len then
    ((none, none), it)
  else
    let v := (m.arrays it.jctxs.arr).get? it.i
    ((v, none), { it with i := it.i + 1 })

/-- The method `GetJobIterator`: an iterator over the clone of the slice of the
queue. -/
def GetJobIterator (slack : Nat → Nat) (st : State) (queue : String) :
    InMemoryJobIterator × State :=
  let r := Clone slack st.1 (st.2.jctxsByQueue queue)
  (NewInMemoryJobIterator r.1, (r.2, st.2))

/-- A call made after an iterator was obtained: `EnqueueMany` on the
repository, or `Next` on the iterator. -/
inductive Call where
  | EnqueueMany (jctxs : List JobSchedulingContext)
  | Next
deriving DecidableEq, Repr

/-- The pairs returned by the `Next` calls of a sequence of calls, in order. -/
def run (E : Externals) (slack : Nat → Nat) :
    State → InMemoryJobIterator → List Call → List (JctxPtr × Option GoError)
  | _, _, [] => []
  | st, it, Call.EnqueueMany jctxs :: rest => run E slack (EnqueueMany E slack st jctxs) it rest
  | st, it, Call.Next :: rest => (it.Next st.1).1 :: run E slack st (it.Next st.1).2 rest

/-- The number of `Next` calls in a sequence of calls. -/
def nextCalls : List Call → Nat
  | [] => 0
  | Call.EnqueueMany _ :: rest => nextCalls rest
  | Call.Next :: rest => nextCalls rest + 1

/-- The state reached from a fresh repository by a sequence of `EnqueueMany`
calls. -/
def enqueueAll (E : Externals) (slack : Nat → Nat) (pool : String)
    (batches : List (List JobSchedulingContext)) : State :=
  batches.foldl (EnqueueMany E slack) (NewInMemoryJobRepository pool)

/-- Every slice of the repository lies in an allocated array (the nil slice in
array zero, which is never allocated to). -/
def Allocated (st : State) : Prop :=
  ∀ Q, (st.2.jctxsByQueue Q).arr < st.1.next

/-- An allocated array that no slice of the repository lies in. -/
def Private (st : State) (a : Nat) : Prop :=
  a < st.1.next ∧ ∀ Q, (st.2.jctxsByQueue Q).arr ≠ a

/-- The repository of sequences that a state stands for: every slice read as
the sequence of its elements. -/
def abstraction (st : State) : Scheduling.InMemoryJobRepository :=
  { jctxsByQueue := fun Q => st.1.contents (st.2.jctxsByQueue Q)
    jctxsById := st.2.jctxsById
    currentPool := st.2.currentPool }

/-- The slices of the repository lie in allocated arrays, within the cells
written, and no two of them share an array; the slices in array zero are
nil. -/
def Separated (st : State) : Prop :=
  Allocated st ∧
  (∀ Q, (st.2.jctxsByQueue Q).len ≤ (st.1.arrays (st.2.jctxsByQueue Q).arr).length) ∧
  (∀ Q, (st.2.jctxsByQueue Q).arr = 0 →
    (st.2.jctxsByQueue Q).len = 0 ∧ (st.2.jctxsByQueue Q).cap = 0) ∧
  (∀ Q Q2, Q ≠ Q2 → (st.2.jctxsByQueue Q).arr = (st.2.jctxsByQueue Q2).arr →
    (st.2.jctxsByQueue Q).arr = 0)

end Aliased

/-! ## JobContextIterator and MultiJobsIterator -/

/-- A value of the interface `JobContextIterator`: some state together with
the method `Next` of its type, which returns the pair `(v, err)` and the state
afterwards. -/
structure JobContextIterator where
  State : Type
  state : State
  next : State → (JctxPtr × Option GoError) × State

/-- A call of `Next` on a value of the interface: the returned pair and the
value afterwards. -/
def JobContextIterator.Next (c : JobContextIterator) :
    (JctxPtr × Option GoError) × JobContextIterator :=
  ((c.next c.state).1, { c with state := (c.next c.state).2 })

/-- An `*InMemoryJobIterator` as a value of the interface. -/
def InMemoryJobIterator.toIterator (it : InMemoryJobIterator) : JobContextIterator :=
  { State := InMemoryJobIterator, state := it, next := InMemoryJobIterator.Next }

/-- An iterator for examples that returns the listed pairs in turn, and
exhausted after them. -/
def scriptedIterator (results : List (JctxPtr × Option GoError)) : JobContextIterator :=
  { State := Nat, state := 0, next := fun pos => (results.getD pos (none, none), pos + 1) }

/-- The struct `MultiJobsIterator`: a cursor and the children. -/
structure MultiJobsIterator where
  i : Nat
  its : List JobContextIterator

/-- The constructor `NewMultiJobsIterator`: the cursor starts at zero. -/
def NewMultiJobsIterator (its : List JobContextIterator) : MultiJobsIterator :=
  { i := 0, its := its }

/-- The method `MultiJobsIterator.Next`, together with the log of the indices
of the children whose `Next` it called, in the order of the calls. The
recursion is that of the source: on an exhausted child the cursor moves on and
`Next` calls itself; it ends because the number of children after the cursor
decreases. -/
def MultiJobsIterator.NextLog (it : MultiJobsIterator) :
    ((JctxPtr × Option GoError) × MultiJobsIterator) × List Nat :=
  if h : it.i ≥ it.its.length then
    (((none, none), it), [])
  else
    let r := (it.its.get ⟨it.i, Nat.lt_of_not_le h⟩).Next
    let it1 : MultiJobsIterator := { i := it.i, its := it.its.set it.i r.2 }
    match r.1.2 with
    | some err => (((none, some err), it1), [it.i])
    | none =>
      match r.1.1 with
      | none =>
        let rec1 := MultiJobsIterator.NextLog { i := it.i + 1, its := it.its.set it.i r.2 }
        (rec1.1, it.i :: rec1.2)
      | some v => (((some v, none), it1), [it.i])
termination_by it.its.length - it.i
decreasing_by
  simp only [List.length_set]
  omega

/-- The method `MultiJobsIterator.Next`: the returned pair and the iterator
afterwards. -/
def MultiJobsIterator.Next (it : MultiJobsIterator) :
    (JctxPtr × Option GoError) × MultiJobsIterator :=
  it.NextLog.1

/-- The method `MultiJobsIterator.Next` with a bound `depth` on the number of
invocations of `Next`, the outermost one counted: `none` when the bound is
reached. -/
def MultiJobsIterator.NextWithin :
    Nat → MultiJobsIterator → Option (((JctxPtr × Option GoError) × MultiJobsIterator) × List Nat)
  | 0, _ => none
  | depth + 1, it =>
    if h : it.i ≥ it.its.length then
      some (((none, none), it), [])
    else
      let r := (it.its.get ⟨it.i, Nat.lt_of_not_le h⟩).Next
      let it1 : MultiJobsIterator := { i := it.i, its := it.its.set it.i r.2 }
      match r.1.2 with
      | some err => some (((none, some err), it1), [it.i])
      | none =>
        match r.1.1 with
        | none =>
          (MultiJobsIterator.NextWithin depth { i := it.i + 1, its := it.its.set it.i r.2 }).map
            (fun rec1 => (rec1.1, it.i :: rec1.2))
        | some v => some (((some v, none), it1), [it.i])

/-- The iterator after a number of calls to `Next`. -/
def MultiJobsIterator.afterCalls (it : MultiJobsIterator) : Nat → MultiJobsIterator
  | 0 => it
  | n + 1 => (it.afterCalls n).Next.2

/-- The pair returned by the call number `n + 1` of `Next`. -/
def MultiJobsIterator.nthNext (it : MultiJobsIterator) (n : Nat) : JctxPtr × Option GoError :=
  (it.afterCalls n).Next.1

/-- A `MultiJobsIterator` whose children are the given in-memory iterators. -/
def MultiJobsIterator.ofStates (i : Nat) (states : List InMemoryJobIterator) :
    MultiJobsIterator :=
  { i := i, its := states.map InMemoryJobIterator.toIterator }

/-- The `MultiJobsIterator` constructed over the in-memory iterators of the
given lists of contexts. -/
def MultiJobsIterator.ofLists (ls : List (List JobSchedulingContext)) : MultiJobsIterator :=
  NewMultiJobsIterator
    (ls.map (fun l => (NewInMemoryJobIterator (l.map some)).toIterator))

/-- What the in-memory children from the cursor on have not yet returned, in
the order of the children. -/
def remainingOutput (i : Nat) (states : List InMemoryJobIterator) : List JctxPtr :=
  ((states.drop i).map (fun s => s.jctxs.drop s.i)).flatten

/-- No in-memory child holds a nil element. -/
def NonNil (states : List InMemoryJobIterator) : Prop :=
  ∀ s ∈ states, ∀ p ∈ s.jctxs, p ≠ none

/-! ## QueuedJobsIterator -/

/-- Modelled from the spec: the durable job source `jobdb.JobIterator`, which
produces jobs one at a time, signals exhaustion by returning no job, and can
fail with an error. The source is given by what each of its successive pulls
returns; `pos` counts the pulls made so far. -/
structure JobIterator where
  results : Nat → Option Job × Option GoError
  pos : Nat

/-- A pull from the job source: what it returns, and the source afterwards. -/
def JobIterator.Next (s : JobIterator) : (Option Job × Option GoError) × JobIterator :=
  (s.results s.pos, { s with pos := s.pos + 1 })

/-- The job source that produces the given jobs and then exhaustion, without
error. -/
def JobIterator.ofList (js : List Job) : JobIterator :=
  { results := fun n => (js[n]?, none), pos := 0 }

/-- Modelled from the spec: the cancellation signal `armadacontext.Context`.
The signal is given by what each successive look at it finds: `none` while
`Done()` is open, and `some e` once it is closed, `e` being `Err()`; `looks`
counts the looks made so far. -/
structure Context where
  signal : Nat → Option GoError
  looks : Nat

/-- A context whose cancellation signal is never active. -/
def Context.background : Context :=
  { signal := fun _ => none, looks := 0 }

/-- Modelled from the spec: `schedulercontext.JobSchedulingContextFromJob`, which
wraps the job in a freshly constructed context. -/
def JobSchedulingContextFromJob (job : Job) : JobSchedulingContext :=
  { tag := 0, Job := job }

/-- The struct `QueuedJobsIterator`. -/
structure QueuedJobsIterator where
  jobIter : JobIterator
  pool : String
  ctx : Context

/-- The constructor `NewQueuedJobsIterator`; `repo` is the method `QueuedJobs`
of the `jobdb.JobRepository`. -/
def NewQueuedJobsIterator (ctx : Context) (queue : String) (pool : String)
    (repo : String → JobIterator) : QueuedJobsIterator :=
  { jobIter := repo queue, pool := pool, ctx := ctx }

/-- The method `QueuedJobsIterator.Next`: the returned pair and the iterator
afterwards. The first argument bounds the number of passes through the `for`
loop; the result is `none` when the bound is reached before the loop
returns. -/
def QueuedJobsIterator.Next :
    Nat → QueuedJobsIterator → Option ((JctxPtr × Option GoError) × QueuedJobsIterator)
  | 0, _ => none
  | fuel + 1, it =>
    match it.ctx.signal it.ctx.looks with
    | some err =>
      some ((none, some err),
        { it with ctx := { signal := it.ctx.signal, looks := it.ctx.looks + 1 } })
    | none =>
      let r := it.jobIter.Next
      let it2 : QueuedJobsIterator :=
        { jobIter := r.2, pool := it.pool,
          ctx := { signal := it.ctx.signal, looks := it.ctx.looks + 1 } }
      match r.1.1 with
      | none => some ((none, none), it2)
      | some job =>
        if it.pool ∈ job.Pools then
          some ((some (JobSchedulingContextFromJob job), none), it2)
        else
          QueuedJobsIterator.Next fuel it2

/-- The iterator after a number of calls to `Next`, each within the bound. -/
def QueuedJobsIterator.afterCalls (fuel : Nat) (it : QueuedJobsIterator) :
    Nat → Option QueuedJobsIterator
  | 0 => some it
  | n + 1 => (QueuedJobsIterator.afterCalls fuel it n).bind
      (fun s => (QueuedJobsIterator.Next fuel s).map (fun r => r.2))

/-- The pair returned by the call number `n + 1` of `Next`. -/
def QueuedJobsIterator.nthNext (fuel : Nat) (it : QueuedJobsIterator) (n : Nat) :
    Option (JctxPtr × Option GoError) :=
  (QueuedJobsIterator.afterCalls fuel it n).bind
    (fun s => (QueuedJobsIterator.Next fuel s).map (fun r => r.1))

/-- The job source with its errors removed. -/
def JobIterator.withoutErrors (s : JobIterator) : JobIterator :=
  { results := fun n => ((s.results n).1, none), pos := s.pos }

/-- A job source whose exhaustion is final: once a pull has returned no job,
every later pull returns no job. -/
def JobIterator.StaysExhausted (s : JobIterator) : Prop :=
  ∀ k, (s.results k).1 = none → ∀ m, k ≤ m → (s.results m).1 = none

/-- The job is eligible for the pool. -/
def eligible (pool : String) (job : Job) : Bool :=
  decide (pool ∈ job.Pools)

/-- The `QueuedJobsIterator` for a pool over the job source that produces the
given jobs and then exhaustion, after `pos` pulls, under a cancellation signal
that is never active and was looked at `looks` times. -/
def QueuedJobsIterator.overList (js : List Job) (pool : String) (pos looks : Nat) :
    QueuedJobsIterator :=
  { jobIter := { results := fun n => (js[n]?, none), pos := pos }
    pool := pool
    ctx := { signal := fun _ => none, looks := looks } }

/-- The number of jobs at the head of a list that are not eligible for the
pool. -/
def skipped (pool : String) (js : List Job) : Nat :=
  (js.takeWhile (fun j => !eligible pool j)).length

/-- A job for examples, with the given id and eligible pools, in queue `q`
and without a run. -/
def mkJob (id : String) (pools : List String) : Job :=
  { Id := id, Queue := "q", Pools := pools, LatestRun := none }

/-- A job source for examples whose every pull fails with the given error and
returns no job. -/
def failingSource (e : GoError) : JobIterator :=
  { results := fun _ => (none, some e), pos := 0 }

/-- A job source for examples whose first pull returns no job and whose second
pull returns the given job. -/
def revivingSource (j : Job) : JobIterator :=
  { results := fun k => if k = 1 then (some j, none) else (none, none), pos := 0 }

/-- A cancellation signal for examples that is inactive at the first look and
active, with the given error, from the second look on. -/
def cancelledAfterFirstLook (e : GoError) : Context :=
  { signal := fun k => if k = 0 then none else some e, looks := 0 }

/-! ## The lock discipline of the repository -/

/-- What a repository operation does to the mutex and to the two maps, in the
order of the source. -/
inductive Access where
  | Lock
  | Unlock
  | ReadByQueue
  | WriteByQueue
  | ReadById
  | WriteById
deriving DecidableEq, Repr

/-- The accesses of `EnqueueMany`: `Lock`; for each context a read and a write
of `jctxsByQueue` and a write of `jctxsById`; for each key of `updatedQueues`
the read and the in-place write of `sortQueue`; and the deferred `Unlock`. -/
def EnqueueMany_accesses (E : Externals) (repo : InMemoryJobRepository)
    (jctxs : List JobSchedulingContext) : List Access :=
  [Access.Lock] ++
    (jctxs.map (fun _ => [Access.ReadByQueue, Access.WriteByQueue, Access.WriteById])).flatten ++
    ((jctxs.foldl (enqueueOne E) (repo, [])).2.map
      (fun _ => [Access.ReadByQueue, Access.WriteByQueue])).flatten ++
    [Access.Unlock]

/-- The accesses of `GetQueueJobIds`: the read of `jctxsByQueue`; the method
does not touch the mutex. -/
def GetQueueJobIds_accesses : List Access :=
  [Access.ReadByQueue]

/-- The accesses of `GetExistingJobsByIds`: `Lock`, a read of `jctxsById` for
each id, and the deferred `Unlock`. -/
def GetExistingJobsByIds_accesses (jobIds : List String) : List Access :=
  [Access.Lock] ++ jobIds.map (fun _ => Access.ReadById) ++ [Access.Unlock]

/-- The accesses of `GetJobIterator`: `Lock`, the read of `jctxsByQueue` for
the clone, and the deferred `Unlock`. -/
def GetJobIterator_accesses : List Access :=
  [Access.Lock, Access.ReadByQueue, Access.Unlock]

/-- Whether a sequence of accesses keeps the lock discipline, starting with
the mutex held or not: the maps are read and written only while the mutex is
held, the mutex is locked only when not held and unlocked only when held, and
it is not held at the end. -/
def Guarded : Bool → List Access → Bool
  | held, [] => !held
  | held, Access.Lock :: rest => !held && Guarded true rest
  | held, Access.Unlock :: rest => held && Guarded false rest
  | held, _ :: rest => held && Guarded held rest

/-- The repository between the two loops of `EnqueueMany`: the batch appended,
the touched queues not yet sorted. -/
def betweenLoops (E : Externals) (repo : InMemoryJobRepository)
    (jctxs : List JobSchedulingContext) : InMemoryJobRepository :=
  (jctxs.foldl (enqueueOne E) (repo, [])).1

/-- A second choice of the external parts for examples: jobs are ordered by
their id, as strings. -/
def orderedExternals : Externals :=
  { CalculateAwayQueueName := fun q => q ++ "-away"
    SchedulingOrderCompare := fun a b => if a.Id < b.Id then -1 else if b.Id < a.Id then 1 else 0
    SortFunc := fun cmp l => l.insertionSort (fun a b => cmp a b ≤ 0) }

/-! ## The first loop of `EnqueueMany` -/

theorem enqueueLoop_currentPool (E : Externals) (batch : List JobSchedulingContext) :
    ∀ (repo : InMemoryJobRepository) (upd : List String),
      (batch.foldl (enqueueOne E) (repo, upd)).1.currentPool = repo.currentPool := by
  induction batch with
  | nil => intro repo upd; rfl
  | cons c rest ih =>
    intro repo upd
    rw [List.foldl_cons]
    simp only [enqueueOne]
    rw [ih]

theorem enqueueLoop_jctxsByQueue (E : Externals) (batch : List JobSchedulingContext) :
    ∀ (repo : InMemoryJobRepository) (upd : List String) (Q : String),
      (batch.foldl (enqueueOne E) (repo, upd)).1.jctxsByQueue Q =
        repo.jctxsByQueue Q ++
          batch.filter (fun c => decide (targetQueue E repo.currentPool c = Q)) := by
  induction batch with
  | nil => intro repo upd Q; simp
  | cons c rest ih =>
    intro repo upd Q
    rw [List.foldl_cons]
    simp only [enqueueOne]
    rw [ih]
    by_cases h : targetQueue E repo.currentPool c = Q
    · subst h
      simp [List.filter_cons]
    · have h2 : Q ≠ targetQueue E repo.currentPool c := fun e => h e.symm
      simp [List.filter_cons, h, Function.update_noteq h2]

theorem enqueueLoop_jctxsById (E : Externals) (batch : List JobSchedulingContext) :
    ∀ (repo : InMemoryJobRepository) (upd : List String) (x : String),
      (batch.foldl (enqueueOne E) (repo, upd)).1.jctxsById x =
        (lastWithId batch x).or (repo.jctxsById x) := by
  induction batch with
  | nil => intro repo upd x; simp [lastWithId]
  | cons c rest ih =>
    intro repo upd x
    rw [List.foldl_cons]
    simp only [enqueueOne]
    rw [ih]
    simp only [lastWithId, List.reverse_cons, List.find?_append]
    by_cases h : c.Job.Id = x
    · subst h
      cases hr : List.find? (fun d => decide (d.Job.Id = c.Job.Id)) rest.reverse <;> simp
    · have h2 : x ≠ c.Job.Id := fun e => h e.symm
      cases hr : List.find? (fun d => decide (d.Job.Id = x)) rest.reverse <;>
        simp [h, Function.update_noteq h2]

theorem enqueueLoop_updatedQueues (E : Externals) (batch : List JobSchedulingContext) :
    ∀ (repo : InMemoryJobRepository) (upd : List String), upd.Nodup →
      (batch.foldl (enqueueOne E) (repo, upd)).2.Nodup ∧
      ∀ Q, Q ∈ (batch.foldl (enqueueOne E) (repo, upd)).2 ↔
        (Q ∈ upd ∨ ∃ c ∈ batch, targetQueue E repo.currentPool c = Q) := by
  induction batch with
  | nil => intro repo upd h; simp [h]
  | cons c rest ih =>
    intro repo upd hnd
    rw [List.foldl_cons]
    simp only [enqueueOne]
    by_cases hm : targetQueue E repo.currentPool c ∈ upd
    · rw [if_pos hm]
      obtain ⟨h1, h2⟩ := ih { repo with
        jctxsByQueue := Function.update repo.jctxsByQueue (targetQueue E repo.currentPool c)
          (repo.jctxsByQueue (targetQueue E repo.currentPool c) ++ [c])
        jctxsById := Function.update repo.jctxsById c.Job.Id (some c) } upd hnd
      refine ⟨h1, fun Q => ?_⟩
      rw [h2 Q]
      constructor
      · rintro (h | ⟨d, hd, e⟩)
        · exact Or.inl h
        · exact Or.inr ⟨d, List.mem_cons_of_mem _ hd, e⟩
      · rintro (h | ⟨d, hd, e⟩)
        · exact Or.inl h
        · rcases List.mem_cons.mp hd with e2 | e2
          · subst e2; subst e; exact Or.inl hm
          · exact Or.inr ⟨d, e2, e⟩
    · rw [if_neg hm]
      have hnd2 : (upd ++ [targetQueue E repo.currentPool c]).Nodup := by
        rw [List.nodup_append]
        refine ⟨hnd, List.nodup_singleton _, ?_⟩
        intro a ha hb
        rw [List.mem_singleton] at hb
        subst hb
        exact hm ha
      obtain ⟨h1, h2⟩ := ih { repo with
        jctxsByQueue := Function.update repo.jctxsByQueue (targetQueue E repo.currentPool c)
          (repo.jctxsByQueue (targetQueue E repo.currentPool c) ++ [c])
        jctxsById := Function.update repo.jctxsById c.Job.Id (some c) } _ hnd2
      refine ⟨h1, fun Q => ?_⟩
      rw [h2 Q]
      simp only [List.mem_append, List.mem_cons, List.not_mem_nil, or_false]
      constructor
      · rintro ((h | h) | ⟨d, hd, e⟩)
        · exact Or.inl h
        · exact Or.inr ⟨c, Or.inl rfl, h.symm⟩
        · exact Or.inr ⟨d, Or.inr hd, e⟩
      · rintro (h | ⟨d, hd | hd, e⟩)
        · exact Or.inl (Or.inl h)
        · subst hd; exact Or.inl (Or.inr e.symm)
        · exact Or.inr ⟨d, hd, e⟩

/-! ## The second loop of `EnqueueMany` -/

theorem sortLoop_currentPool (E : Externals) (keys : List String) :
    ∀ repo : InMemoryJobRepository,
      (keys.foldl (sortQueue E) repo).currentPool = repo.currentPool := by
  induction keys with
  | nil => intro repo; rfl
  | cons k rest ih => intro repo; rw [List.foldl_cons, ih]; rfl

theorem sortLoop_jctxsById (E : Externals) (keys : List String) :
    ∀ repo : InMemoryJobRepository,
      (keys.foldl (sortQueue E) repo).jctxsById = repo.jctxsById := by
  induction keys with
  | nil => intro repo; rfl
  | cons k rest ih => intro repo; rw [List.foldl_cons, ih]; rfl

theorem sortLoop_not_mem (E : Externals) (keys : List String) :
    ∀ (repo : InMemoryJobRepository) (Q : String), Q ∉ keys →
      (keys.foldl (sortQueue E) repo).jctxsByQueue Q = repo.jctxsByQueue Q := by
  induction keys with
  | nil => intro repo Q _; rfl
  | cons k rest ih =>
    intro repo Q h
    rw [List.foldl_cons, ih _ _ (fun hm => h (List.mem_cons_of_mem _ hm))]
    have hne : Q ≠ k := fun e => h (e ▸ List.mem_cons_self _ _)
    simp [sortQueue, Function.update_noteq hne]

theorem sortLoop_mem (E : Externals) (keys : List String) :
    ∀ (repo : InMemoryJobRepository) (Q : String), keys.Nodup → Q ∈ keys →
      (keys.foldl (sortQueue E) repo).jctxsByQueue Q =
        E.SortFunc (jctxCompare E) (repo.jctxsByQueue Q) := by
  induction keys with
  | nil => intro repo Q _ h; cases h
  | cons k rest ih =>
    intro repo Q hnd h
    rw [List.foldl_cons]
    rw [List.nodup_cons] at hnd
    rcases List.mem_cons.mp h with e | hm
    · subst e
      rw [sortLoop_not_mem E rest _ _ hnd.1]
      simp [sortQueue]
    · rw [ih _ _ hnd.2 hm]
      have hne : Q ≠ k := fun e => hnd.1 (e ▸ hm)
      simp [sortQueue, Function.update_noteq hne]

/-- The order in which the second loop ranges over the keys of `updatedQueues`
does not matter. -/
theorem sortLoop_order (E : Externals) (keys keys2 : List String) (h : keys.Perm keys2)
    (hnd : keys.Nodup) (repo : InMemoryJobRepository) (Q : String) :
    (keys.foldl (sortQueue E) repo).jctxsByQueue Q =
      (keys2.foldl (sortQueue E) repo).jctxsByQueue Q := by
  by_cases hm : Q ∈ keys
  · rw [sortLoop_mem E keys repo Q hnd hm,
      sortLoop_mem E keys2 repo Q (h.nodup_iff.mp hnd) (h.mem_iff.mp hm)]
  · rw [sortLoop_not_mem E keys repo Q hm,
      sortLoop_not_mem E keys2 repo Q (fun h2 => hm (h.mem_iff.mpr h2))]

/-! ## What `EnqueueMany` stores -/

theorem EnqueueMany_currentPool (E : Externals) (repo : InMemoryJobRepository)
    (batch : List JobSchedulingContext) :
    (EnqueueMany E repo batch).currentPool = repo.currentPool := by
  simp only [EnqueueMany]
  rw [sortLoop_currentPool, enqueueLoop_currentPool]

theorem EnqueueMany_jctxsById (E : Externals) (repo : InMemoryJobRepository)
    (batch : List JobSchedulingContext) (x : String) :
    (EnqueueMany E repo batch).jctxsById x = (lastWithId batch x).or (repo.jctxsById x) := by
  simp only [EnqueueMany]
  rw [sortLoop_jctxsById, enqueueLoop_jctxsById]

theorem EnqueueMany_untouched (E : Externals) (repo : InMemoryJobRepository)
    (batch : List JobSchedulingContext) (Q : String)
    (h : ∀ c ∈ batch, targetQueue E repo.currentPool c ≠ Q) :
    (EnqueueMany E repo batch).jctxsByQueue Q = repo.jctxsByQueue Q := by
  simp only [EnqueueMany]
  have hk := (enqueueLoop_updatedQueues E batch repo [] List.nodup_nil).2 Q
  rw [sortLoop_not_mem, enqueueLoop_jctxsByQueue]
  · have : batch.filter (fun c => decide (targetQueue E repo.currentPool c = Q)) = [] := by
      rw [List.filter_eq_nil_iff]
      intro c hc
      simpa using h c hc
    rw [this, List.append_nil]
  · rw [hk]
    rintro (h1 | ⟨c, hc, e⟩)
    · cases h1
    · exact h c hc e

theorem EnqueueMany_touched (E : Externals) (repo : InMemoryJobRepository)
    (batch : List JobSchedulingContext) (Q : String)
    (h : ∃ c ∈ batch, targetQueue E repo.currentPool c = Q) :
    (EnqueueMany E repo batch).jctxsByQueue Q =
      E.SortFunc (jctxCompare E) (repo.jctxsByQueue Q ++
        batch.filter (fun c => decide (targetQueue E repo.currentPool c = Q))) := by
  simp only [EnqueueMany]
  have hk := enqueueLoop_updatedQueues E batch repo [] List.nodup_nil
  rw [sortLoop_mem E _ _ Q hk.1 ((hk.2 Q).mpr (Or.inr h)), enqueueLoop_jctxsByQueue]

theorem EnqueueMany_perm (E : Externals) (hperm : SortFuncPermutes E)
    (repo : InMemoryJobRepository) (batch : List JobSchedulingContext) (Q : String) :
    ((EnqueueMany E repo batch).jctxsByQueue Q).Perm
      (repo.jctxsByQueue Q ++
        batch.filter (fun c => decide (targetQueue E repo.currentPool c = Q))) := by
  by_cases h : ∃ c ∈ batch, targetQueue E repo.currentPool c = Q
  · rw [EnqueueMany_touched E repo batch Q h]
    exact hperm _ _
  · have h2 : ∀ c ∈ batch, targetQueue E repo.currentPool c ≠ Q :=
      fun c hc e => h ⟨c, hc, e⟩
    rw [EnqueueMany_untouched E repo batch Q h2]
    have : batch.filter (fun c => decide (targetQueue E repo.currentPool c = Q)) = [] := by
      rw [List.filter_eq_nil_iff]
      intro c hc
      simpa using h2 c hc
    rw [this, List.append_nil]

/-! ## The example externals meet the contracts -/

theorem exampleExternals_permutes : SortFuncPermutes exampleExternals := by
  intro cmp l
  exact List.perm_insertionSort _ l

theorem exampleExternals_sorts : SortFuncSorts exampleExternals := by
  intro cmp h l
  haveI : IsTotal JobSchedulingContext (fun a b => cmp a b ≤ 0) := ⟨h.2.1⟩
  haveI : IsTrans JobSchedulingContext (fun a b => cmp a b ≤ 0) := ⟨h.2.2⟩
  exact List.sorted_insertionSort (fun a b => cmp a b ≤ 0) l

theorem exampleExternals_preorder : IsTotalPreorder exampleExternals.SchedulingOrderCompare := by
  refine ⟨?_, ?_, ?_⟩
  · intro a b; simp only [exampleExternals]; omega
  · intro a b; simp only [exampleExternals]; omega
  · intro a b c; simp only [exampleExternals]; omega

theorem exampleExternals_away (q : String) : exampleExternals.CalculateAwayQueueName q ≠ q := by
  intro h
  have h2 := congrArg String.length h
  simp [exampleExternals, String.length_append] at h2
  revert h2
  decide

/-! ## Invariants of the reachable repositories -/

theorem jctxCompare_preorder (E : Externals) (h : IsTotalPreorder E.SchedulingOrderCompare) :
    IsTotalPreorder (jctxCompare E) :=
  ⟨fun a b => h.1 a.Job b.Job, fun a b => h.2.1 a.Job b.Job,
    fun a b c => h.2.2 a.Job b.Job c.Job⟩

theorem EnqueueMany_sorted (E : Externals) (hsorts : SortFuncSorts E)
    (hcmp : IsTotalPreorder E.SchedulingOrderCompare) (repo : InMemoryJobRepository)
    (batch : List JobSchedulingContext)
    (hrepo : ∀ Q, NonDecreasing (jctxCompare E) (repo.jctxsByQueue Q)) (Q : String) :
    NonDecreasing (jctxCompare E) ((EnqueueMany E repo batch).jctxsByQueue Q) := by
  by_cases h : ∃ c ∈ batch, targetQueue E repo.currentPool c = Q
  · rw [EnqueueMany_touched E repo batch Q h]
    exact hsorts _ (jctxCompare_preorder E hcmp) _
  · rw [EnqueueMany_untouched E repo batch Q (fun c hc e => h ⟨c, hc, e⟩)]
    exact hrepo Q

theorem foldl_EnqueueMany_sorted (E : Externals) (hsorts : SortFuncSorts E)
    (hcmp : IsTotalPreorder E.SchedulingOrderCompare) (batches : List (List JobSchedulingContext)) :
    ∀ repo : InMemoryJobRepository,
      (∀ Q, NonDecreasing (jctxCompare E) (repo.jctxsByQueue Q)) →
      ∀ Q, NonDecreasing (jctxCompare E)
        ((batches.foldl (EnqueueMany E) repo).jctxsByQueue Q) := by
  induction batches with
  | nil => intro repo h Q; exact h Q
  | cons b rest ih =>
    intro repo h Q
    rw [List.foldl_cons]
    exact ih _ (fun Q2 => EnqueueMany_sorted E hsorts hcmp repo b h Q2) Q

theorem foldl_EnqueueMany_currentPool (E : Externals)
    (batches : List (List JobSchedulingContext)) :
    ∀ repo : InMemoryJobRepository,
      (batches.foldl (EnqueueMany E) repo).currentPool = repo.currentPool := by
  induction batches with
  | nil => intro repo; rfl
  | cons b rest ih => intro repo; rw [List.foldl_cons, ih, EnqueueMany_currentPool]

theorem foldl_EnqueueMany_perm (E : Externals) (hperm : SortFuncPermutes E)
    (batches : List (List JobSchedulingContext)) :
    ∀ (repo : InMemoryJobRepository) (Q : String),
      ((batches.foldl (EnqueueMany E) repo).jctxsByQueue Q).Perm
        (repo.jctxsByQueue Q ++
          batches.flatten.filter (fun c => decide (targetQueue E repo.currentPool c = Q))) := by
  induction batches with
  | nil => intro repo Q; simp
  | cons b rest ih =>
    intro repo Q
    rw [List.foldl_cons]
    refine (ih _ Q).trans ?_
    rw [EnqueueMany_currentPool, List.flatten_cons, List.filter_append, ← List.append_assoc]
    exact (EnqueueMany_perm E hperm repo b Q).append_right _

theorem enqueueAll_perm (E : Externals) (hperm : SortFuncPermutes E) (pool : String)
    (batches : List (List JobSchedulingContext)) (Q : String) :
    ((enqueueAll E pool batches).jctxsByQueue Q).Perm
      (batches.flatten.filter (fun c => decide (targetQueue E pool c = Q))) := by
  have h := foldl_EnqueueMany_perm E hperm batches (NewInMemoryJobRepository pool) Q
  simpa [enqueueAll, NewInMemoryJobRepository] using h

/-! ## The claims -/

/-- C1: when the job comparator is a total preorder (and the library sort keeps
its contract), in every repository reached from a fresh one by a sequence of
`EnqueueMany` batches the sequence stored for every queue is non-decreasing
(each element compares `≤ 0` against every element after it), and
`GetQueueJobIds` returns the ids of that sequence in that order. -/
theorem C1_queue_non_decreasing (E : Externals) (hsorts : SortFuncSorts E)
    (hcmp : IsTotalPreorder E.SchedulingOrderCompare) (pool : String)
    (batches : List (List JobSchedulingContext)) (Q : String) :
    ((enqueueAll E pool batches).jctxsByQueue Q).Pairwise
        (fun a b => E.SchedulingOrderCompare a.Job b.Job ≤ 0) ∧
      (GetQueueJobIds (enqueueAll E pool batches) Q).1 =
        ((enqueueAll E pool batches).jctxsByQueue Q).map (fun c => c.Job.Id) := by
  refine ⟨?_, rfl⟩
  exact foldl_EnqueueMany_sorted E hsorts hcmp batches (NewInMemoryJobRepository pool)
    (fun _ => List.Pairwise.nil) Q

/-- Witness of C1: two batches into queue `q` under the example externals. -/
theorem C1_queue_non_decreasing_witness :
    SortFuncSorts exampleExternals ∧
    IsTotalPreorder exampleExternals.SchedulingOrderCompare ∧
    (((enqueueAll exampleExternals "A"
        [[mkJctx 0 "xxx" "q" none, mkJctx 1 "x" "q" none],
          [mkJctx 2 "xx" "q" none]]).jctxsByQueue "q").Pairwise
        (fun a b => exampleExternals.SchedulingOrderCompare a.Job b.Job ≤ 0) ∧
      (GetQueueJobIds (enqueueAll exampleExternals "A"
        [[mkJctx 0 "xxx" "q" none, mkJctx 1 "x" "q" none],
          [mkJctx 2 "xx" "q" none]]) "q").1 =
        ((enqueueAll exampleExternals "A"
        [[mkJctx 0 "xxx" "q" none, mkJctx 1 "x" "q" none],
          [mkJctx 2 "xx" "q" none]]).jctxsByQueue "q").map (fun c => c.Job.Id)) :=
  ⟨exampleExternals_sorts, exampleExternals_preorder,
    C1_queue_non_decreasing exampleExternals exampleExternals_sorts exampleExternals_preorder
      "A" [[mkJctx 0 "xxx" "q" none, mkJctx 1 "x" "q" none], [mkJctx 2 "xx" "q" none]] "q"⟩

/-- C2: after `EnqueueMany` the sequence stored for a queue is a rearrangement
of the sequence stored before followed by the contexts of the batch whose
target queue it is; so a context is stored afterwards exactly when it was
stored before or is such a batch context, and the length grows by the number
of such batch contexts. The target queue is the home queue of the job, or the
away queue of the home queue when the job has a latest run in another pool
than the pool of the repository. -/
theorem C2_enqueue_permutation (E : Externals) (hperm : SortFuncPermutes E)
    (repo : InMemoryJobRepository) (batch : List JobSchedulingContext) (Q : String) :
    ((EnqueueMany E repo batch).jctxsByQueue Q).Perm
        (repo.jctxsByQueue Q ++
          batch.filter (fun c => decide (targetQueue E repo.currentPool c = Q))) ∧
      (∀ c, c ∈ (EnqueueMany E repo batch).jctxsByQueue Q ↔
        (c ∈ repo.jctxsByQueue Q ∨ (c ∈ batch ∧ targetQueue E repo.currentPool c = Q))) ∧
      ((EnqueueMany E repo batch).jctxsByQueue Q).length =
        (repo.jctxsByQueue Q).length +
          batch.countP (fun c => decide (targetQueue E repo.currentPool c = Q)) ∧
      (∀ c : JobSchedulingContext, targetQueue E repo.currentPool c =
        if (∃ run, c.Job.LatestRun = some run ∧ run.Pool ≠ repo.currentPool)
        then E.CalculateAwayQueueName c.Job.Queue else c.Job.Queue) := by
  have h := EnqueueMany_perm E hperm repo batch Q
  refine ⟨h, ?_, ?_, ?_⟩
  · intro c
    rw [h.mem_iff]
    simp
  · rw [h.length_eq, List.length_append, List.countP_eq_length_filter]
  · intro c
    unfold targetQueue
    cases hr : c.Job.LatestRun with
    | none => simp
    | some run =>
      by_cases hp : run.Pool = repo.currentPool <;> simp [hp]

/-- Witness of C2: a batch of three contexts, two of them for queue `q`. -/
theorem C2_enqueue_permutation_witness :
    SortFuncPermutes exampleExternals ∧
    ((EnqueueMany exampleExternals (NewInMemoryJobRepository "A")
        [mkJctx 0 "xx" "q" none, mkJctx 1 "x" "q" none,
          mkJctx 2 "y" "q" (some ⟨"B"⟩)]).jctxsByQueue "q").length = 0 + 2 :=
  ⟨exampleExternals_permutes,
    (C2_enqueue_permutation exampleExternals exampleExternals_permutes
      (NewInMemoryJobRepository "A")
      [mkJctx 0 "xx" "q" none, mkJctx 1 "x" "q" none, mkJctx 2 "y" "q" (some ⟨"B"⟩)]
      "q").2.2.1⟩

/-- C3, counterexample: a batch holding two contexts for the same job id `x`
with home queue `q`, the first without a run and the second with a latest run
in pool `B`, enqueued into a fresh repository of pool `A` whose away queue
names differ from the home queue names. The second context goes to the away
queue, and yet its job id occurs in `GetQueueJobIds` of its home queue. -/
theorem C3_counterexample :
    (∀ q, exampleExternals.CalculateAwayQueueName q ≠ q) ∧
    mkJctx 1 "x" "q" (some ⟨"B"⟩) ∈
      [mkJctx 0 "x" "q" none, mkJctx 1 "x" "q" (some ⟨"B"⟩)] ∧
    (∃ run, (mkJctx 1 "x" "q" (some ⟨"B"⟩)).Job.LatestRun = some run ∧
      run.Pool ≠ (NewInMemoryJobRepository "A").currentPool) ∧
    ¬ ((mkJctx 1 "x" "q" (some ⟨"B"⟩)).Job.Id ∈
        (GetQueueJobIds (EnqueueMany exampleExternals (NewInMemoryJobRepository "A")
          [mkJctx 0 "x" "q" none, mkJctx 1 "x" "q" (some ⟨"B"⟩)])
          (exampleExternals.CalculateAwayQueueName
            (mkJctx 1 "x" "q" (some ⟨"B"⟩)).Job.Queue)).1 ∧
      (mkJctx 1 "x" "q" (some ⟨"B"⟩)).Job.Id ∉
        (GetQueueJobIds (EnqueueMany exampleExternals (NewInMemoryJobRepository "A")
          [mkJctx 0 "x" "q" none, mkJctx 1 "x" "q" (some ⟨"B"⟩)])
          (mkJctx 1 "x" "q" (some ⟨"B"⟩)).Job.Queue).1) := by
  refine ⟨exampleExternals_away, by decide, ⟨⟨"B"⟩, rfl, by decide⟩, by decide⟩

/-- C3, amended: when away queue names differ from home queue names, a batch
context whose job has a latest run in another pool than the pool of the
repository has, after `EnqueueMany`, its job id in `GetQueueJobIds` of the
away queue of its home queue; and its job id is not in `GetQueueJobIds` of its
home queue provided that no context stored there before the call has that job
id and no other context of the batch with that job id targets the home
queue. -/
theorem C3_away_queue (E : Externals) (hperm : SortFuncPermutes E)
    (haway : ∀ q, E.CalculateAwayQueueName q ≠ q)
    (repo : InMemoryJobRepository) (batch : List JobSchedulingContext)
    (c : JobSchedulingContext) (hc : c ∈ batch)
    (hrun : ∃ run, c.Job.LatestRun = some run ∧ run.Pool ≠ repo.currentPool) :
    c.Job.Id ∈ (GetQueueJobIds (EnqueueMany E repo batch)
        (E.CalculateAwayQueueName c.Job.Queue)).1 ∧
      ((∀ d ∈ repo.jctxsByQueue c.Job.Queue, d.Job.Id ≠ c.Job.Id) →
        (∀ d ∈ batch, d ≠ c → d.Job.Id = c.Job.Id →
          targetQueue E repo.currentPool d ≠ c.Job.Queue) →
        c.Job.Id ∉ (GetQueueJobIds (EnqueueMany E repo batch) c.Job.Queue).1) := by
  have htarget : targetQueue E repo.currentPool c = E.CalculateAwayQueueName c.Job.Queue := by
    obtain ⟨run, h1, h2⟩ := hrun
    simp [targetQueue, h1, h2]
  constructor
  · simp only [GetQueueJobIds, armadaslices_Map]
    rw [List.mem_map]
    refine ⟨c, ?_, rfl⟩
    rw [(EnqueueMany_perm E hperm repo batch _).mem_iff, List.mem_append, List.mem_filter]
    exact Or.inr ⟨hc, by simpa using htarget⟩
  · intro hold hbatch hmem
    simp only [GetQueueJobIds, armadaslices_Map] at hmem
    rw [List.mem_map] at hmem
    obtain ⟨d, hd, hid⟩ := hmem
    rw [(EnqueueMany_perm E hperm repo batch _).mem_iff, List.mem_append, List.mem_filter] at hd
    rcases hd with hd | ⟨hd, ht⟩
    · exact hold d hd hid
    · have ht2 : targetQueue E repo.currentPool d = c.Job.Queue := by simpa using ht
      by_cases hdc : d = c
      · subst hdc
        rw [htarget] at ht2
        exact haway _ ht2
      · exact hbatch d hd hdc hid ht2

/-- Witness of C3: a batch of two contexts for different jobs, the second with
a latest run in pool `B`, enqueued into a fresh repository of pool `A`. -/
theorem C3_away_queue_witness :
    SortFuncPermutes exampleExternals ∧
    (∀ q, exampleExternals.CalculateAwayQueueName q ≠ q) ∧
    "y" ∈ (GetQueueJobIds (EnqueueMany exampleExternals (NewInMemoryJobRepository "A")
        [mkJctx 0 "x" "q" none, mkJctx 1 "y" "q" (some ⟨"B"⟩)]) "q-away").1 ∧
    "y" ∉ (GetQueueJobIds (EnqueueMany exampleExternals (NewInMemoryJobRepository "A")
        [mkJctx 0 "x" "q" none, mkJctx 1 "y" "q" (some ⟨"B"⟩)]) "q").1 :=
  have h := C3_away_queue exampleExternals exampleExternals_permutes exampleExternals_away
    (NewInMemoryJobRepository "A") [mkJctx 0 "x" "q" none, mkJctx 1 "y" "q" (some ⟨"B"⟩)]
    (mkJctx 1 "y" "q" (some ⟨"B"⟩)) (by decide) ⟨⟨"B"⟩, rfl, by decide⟩
  ⟨exampleExternals_permutes, exampleExternals_away, h.1,
    h.2 (by intro d hd; cases hd) (by decide)⟩

/-- C4, counterexample: the same context enqueued twice in one batch into a
fresh repository leaves its job id twice in `GetQueueJobIds` of its queue. -/
theorem C4_counterexample :
    ¬ (GetQueueJobIds (enqueueAll exampleExternals "A"
        [[mkJctx 0 "x" "q" none, mkJctx 0 "x" "q" none]]) "q").1.Nodup := by
  decide

/-- C4, amended: in a repository reached from a fresh one by a sequence of
`EnqueueMany` batches, no job id occurs twice in `GetQueueJobIds` of a queue
exactly when the contexts enqueued so far that target this queue, repeats
counted, have pairwise distinct job ids; in particular when all the contexts
enqueued so far have pairwise distinct job ids. -/
theorem C4_queue_ids_unique (E : Externals) (hperm : SortFuncPermutes E) (pool : String)
    (batches : List (List JobSchedulingContext)) (Q : String) :
    ((GetQueueJobIds (enqueueAll E pool batches) Q).1.Nodup ↔
        ((batches.flatten.filter (fun c => decide (targetQueue E pool c = Q))).map
          (fun c => c.Job.Id)).Nodup) ∧
      ((batches.flatten.map (fun c => c.Job.Id)).Nodup →
        (GetQueueJobIds (enqueueAll E pool batches) Q).1.Nodup) := by
  have h := (enqueueAll_perm E hperm pool batches Q).map (fun c => c.Job.Id)
  have hiff : (GetQueueJobIds (enqueueAll E pool batches) Q).1.Nodup ↔
      ((batches.flatten.filter (fun c => decide (targetQueue E pool c = Q))).map
        (fun c => c.Job.Id)).Nodup := by
    simp only [GetQueueJobIds, armadaslices_Map]
    exact h.nodup_iff
  refine ⟨hiff, fun hnd => hiff.mpr ?_⟩
  exact List.Nodup.sublist (List.Sublist.map _ (List.filter_sublist _)) hnd

/-- Witness of C4: two batches of contexts with distinct job ids. -/
theorem C4_queue_ids_unique_witness :
    SortFuncPermutes exampleExternals ∧
    (GetQueueJobIds (enqueueAll exampleExternals "A"
      [[mkJctx 0 "xx" "q" none, mkJctx 1 "x" "q" none], [mkJctx 2 "y" "q" none]]) "q").1.Nodup :=
  ⟨exampleExternals_permutes,
    (C4_queue_ids_unique exampleExternals exampleExternals_permutes "A"
      [[mkJctx 0 "xx" "q" none, mkJctx 1 "x" "q" none], [mkJctx 2 "y" "q" none]] "q").2
      (by decide)⟩

/-- C5: the id map is last-write-wins. After `EnqueueMany` the entry of a job id
is the last context of the batch whose job has this id when the batch holds
one, and otherwise the entry (or the absence of an entry) it had before; where
the last such context is the one followed in the batch by no context with this
id, and there is none exactly when no context of the batch has this id. -/
theorem C5_id_map_last_write_wins (E : Externals) (repo : InMemoryJobRepository)
    (batch : List JobSchedulingContext) (x : String) :
    (EnqueueMany E repo batch).jctxsById x =
        (match lastWithId batch x with
          | some c => some c
          | none => repo.jctxsById x) ∧
      (∀ c, lastWithId batch x = some c ↔
        ∃ pre post, batch = pre ++ c :: post ∧ c.Job.Id = x ∧ ∀ d ∈ post, d.Job.Id ≠ x) ∧
      (lastWithId batch x = none ↔ ∀ d ∈ batch, d.Job.Id ≠ x) := by
  refine ⟨?_, ?_, ?_⟩
  · rw [EnqueueMany_jctxsById]
    cases lastWithId batch x <;> rfl
  · intro c
    unfold lastWithId
    rw [List.find?_eq_some]
    constructor
    · rintro ⟨hc, as, bs, e, hbs⟩
      refine ⟨bs.reverse, as.reverse, ?_, by simpa using hc, ?_⟩
      · have := congrArg List.reverse e
        simpa using this
      · intro d hd
        have := hbs d (List.mem_reverse.mp hd)
        simpa using this
    · rintro ⟨pre, post, e, hc, hpost⟩
      refine ⟨by simpa using hc, post.reverse, pre.reverse, ?_, ?_⟩
      · rw [e]; simp
      · intro d hd
        have := hpost d (List.mem_reverse.mp hd)
        simpa using this
  · unfold lastWithId
    rw [List.find?_eq_none]
    simp

/-- C6: `EnqueueMany` leaves alone every queue that no context of the batch
targets, whether its sequence was sorted or not, and never changes the pool of
the repository. -/
theorem C6_untouched_queue_unchanged (E : Externals) (repo : InMemoryJobRepository)
    (batch : List JobSchedulingContext) (Q : String)
    (h : ∀ c ∈ batch, targetQueue E repo.currentPool c ≠ Q) :
    (EnqueueMany E repo batch).jctxsByQueue Q = repo.jctxsByQueue Q ∧
      (EnqueueMany E repo batch).currentPool = repo.currentPool :=
  ⟨EnqueueMany_untouched E repo batch Q h, EnqueueMany_currentPool E repo batch⟩

/-- Witness of C6: a batch for queue `q` leaves the unsorted queue `p` as it
is. -/
theorem C6_untouched_queue_unchanged_witness :
    (∀ c ∈ [mkJctx 2 "y" "q" none],
      targetQueue exampleExternals unsortedRepository.currentPool c ≠ "p") ∧
    (EnqueueMany exampleExternals unsortedRepository [mkJctx 2 "y" "q" none]).jctxsByQueue "p" =
      [mkJctx 0 "xx" "p" none, mkJctx 1 "x" "p" none] ∧
    (EnqueueMany exampleExternals unsortedRepository [mkJctx 2 "y" "q" none]).currentPool =
      "A" :=
  ⟨by decide,
    C6_untouched_queue_unchanged exampleExternals unsortedRepository [mkJctx 2 "y" "q" none]
      "p" (by decide)⟩

/-! ## The id map of the reachable repositories -/

theorem lastWithId_id (batch : List JobSchedulingContext) (x : String)
    (c : JobSchedulingContext) (h : lastWithId batch x = some c) : c.Job.Id = x := by
  have := List.find?_some h
  simpa using this

theorem foldl_EnqueueMany_id (E : Externals) (batches : List (List JobSchedulingContext)) :
    ∀ repo : InMemoryJobRepository,
      (∀ x c, repo.jctxsById x = some c → c.Job.Id = x) →
      ∀ x c, (batches.foldl (EnqueueMany E) repo).jctxsById x = some c → c.Job.Id = x := by
  induction batches with
  | nil => intro repo h x c hx; exact h x c hx
  | cons b rest ih =>
    intro repo h
    rw [List.foldl_cons]
    apply ih
    intro x c hx
    rw [EnqueueMany_jctxsById] at hx
    cases hl : lastWithId b x with
    | none => rw [hl] at hx; exact h x c (by simpa using hx)
    | some d =>
      rw [hl] at hx
      have : d = c := by simpa using hx
      subst this
      exact lastWithId_id b x d hl

theorem enqueueAll_id (E : Externals) (pool : String)
    (batches : List (List JobSchedulingContext)) (x : String) (c : JobSchedulingContext)
    (h : (enqueueAll E pool batches).jctxsById x = some c) : c.Job.Id = x :=
  foldl_EnqueueMany_id E batches (NewInMemoryJobRepository pool)
    (fun _ _ h0 => by simp [NewInMemoryJobRepository] at h0) x c h

theorem lookupLoop_eq (f : String → Option JobSchedulingContext) (ids : List String) :
    ∀ acc : List Job,
      ids.foldl
        (fun rv jobId =>
          match f jobId with
          | some jctx => rv ++ [jctx.Job]
          | none => rv) acc =
      acc ++ ids.filterMap (fun jobId => (f jobId).map (fun jctx => jctx.Job)) := by
  induction ids with
  | nil => intro acc; simp
  | cons a rest ih =>
    intro acc
    rw [List.foldl_cons, ih]
    cases h : f a <;> simp [List.filterMap_cons, h]

theorem lookup_ids (f : String → Option JobSchedulingContext)
    (hid : ∀ x c, f x = some c → c.Job.Id = x) (ids : List String) :
    (ids.filterMap (fun x => (f x).map (fun jctx => jctx.Job))).map (fun j => j.Id) =
      ids.filter (fun x => (f x).isSome) := by
  induction ids with
  | nil => rfl
  | cons a rest ih =>
    cases h : f a with
    | none => simp [List.filterMap_cons, List.filter_cons, h, ih]
    | some c => simp [List.filterMap_cons, List.filter_cons, h, ih, hid a c h]

/-- C7: on a repository reached by `EnqueueMany` calls, `GetExistingJobsByIds`
returns, in the order of the queried ids and with repeats, the job of the id
map entry of each id that has one and nothing for the others; the ids of the
returned jobs are the queried ids filtered to those with an entry; the
repository is left as it was; and with jobs `j1` and `j2` held, the query
`[j1, j3]` returns exactly the job `j1`. -/
theorem C7_get_existing_jobs (E : Externals) (pool : String)
    (batches : List (List JobSchedulingContext)) (ids : List String) :
    (GetExistingJobsByIds (enqueueAll E pool batches) ids).1 =
        ids.filterMap (fun x =>
          ((enqueueAll E pool batches).jctxsById x).map (fun jctx => jctx.Job)) ∧
      (GetExistingJobsByIds (enqueueAll E pool batches) ids).1.map (fun j => j.Id) =
        ids.filter (fun x => ((enqueueAll E pool batches).jctxsById x).isSome) ∧
      (GetExistingJobsByIds (enqueueAll E pool batches) ids).2 = enqueueAll E pool batches ∧
      (GetExistingJobsByIds
        (enqueueAll exampleExternals "A" [[mkJctx 1 "j1" "q" none, mkJctx 2 "j2" "q" none]])
        ["j1", "j3"]).1 = [(mkJctx 1 "j1" "q" none).Job] := by
  have h1 : (GetExistingJobsByIds (enqueueAll E pool batches) ids).1 =
      ids.filterMap (fun x =>
        ((enqueueAll E pool batches).jctxsById x).map (fun jctx => jctx.Job)) := by
    simp only [GetExistingJobsByIds]
    rw [lookupLoop_eq]
    rfl
  refine ⟨h1, ?_, rfl, by decide⟩
  rw [h1]
  exact lookup_ids _ (enqueueAll_id E pool batches) ids

/-- C8: `GetQueueJobIds` returns a list as long as the sequence stored for the
queue, whose element at each position is the job id of the context stored at
that position, and leaves the repository as it was; for a queue that no
enqueued context has targeted, and so for every queue of a fresh repository,
it returns the empty list. -/
theorem C8_get_queue_job_ids (E : Externals) (repo : InMemoryJobRepository) (Q : String) :
    (GetQueueJobIds repo Q).1.length = (repo.jctxsByQueue Q).length ∧
      (∀ (i : Nat) (h : i < (repo.jctxsByQueue Q).length),
        (GetQueueJobIds repo Q).1.get? i = some ((repo.jctxsByQueue Q).get ⟨i, h⟩).Job.Id) ∧
      (GetQueueJobIds repo Q).2 = repo ∧
      (∀ (pool : String) (batches : List (List JobSchedulingContext)),
        (∀ b ∈ batches, ∀ c ∈ b, targetQueue E pool c ≠ Q) →
        (GetQueueJobIds (enqueueAll E pool batches) Q).1 = []) ∧
      (∀ pool : String, (GetQueueJobIds (NewInMemoryJobRepository pool) Q).1 = []) := by
  refine ⟨?_, ?_, rfl, ?_, fun _ => rfl⟩
  · simp [GetQueueJobIds, armadaslices_Map]
  · intro i h
    simp [GetQueueJobIds, armadaslices_Map, List.getElem?_eq_getElem h]
  · intro pool batches hb
    have key : ∀ (bs : List (List JobSchedulingContext)) (r : InMemoryJobRepository),
        (∀ b ∈ bs, ∀ c ∈ b, targetQueue E r.currentPool c ≠ Q) →
        (bs.foldl (EnqueueMany E) r).jctxsByQueue Q = r.jctxsByQueue Q := by
      intro bs
      induction bs with
      | nil => intro r _; rfl
      | cons b rest ih =>
        intro r hr
        rw [List.foldl_cons, ih, EnqueueMany_untouched E r b Q (hr b (List.mem_cons_self _ _))]
        rw [EnqueueMany_currentPool]
        exact fun b2 hb2 => hr b2 (List.mem_cons_of_mem _ hb2)
    have := key batches (NewInMemoryJobRepository pool) hb
    simp only [GetQueueJobIds, armadaslices_Map, enqueueAll]
    rw [this]
    rfl

/-- Witness of C8: after a batch for queue `q`, the queue `r` that nothing
targeted has no job ids. -/
theorem C8_get_queue_job_ids_witness :
    (∀ b ∈ [[mkJctx 0 "x" "q" none]], ∀ c ∈ b, targetQueue exampleExternals "A" c ≠ "r") ∧
    (GetQueueJobIds (enqueueAll exampleExternals "A" [[mkJctx 0 "x" "q" none]]) "r").1 = [] :=
  ⟨by decide,
    (C8_get_queue_job_ids exampleExternals (NewInMemoryJobRepository "A") "r").2.2.2.1
      "A" [[mkJctx 0 "x" "q" none]] (by decide)⟩

/-! ## InMemoryJobIterator -/

theorem InMemoryJobIterator.Next_exhausted (it : InMemoryJobIterator)
    (h : it.jctxs.length ≤ it.i) : it.Next = ((none, none), it) := by
  unfold InMemoryJobIterator.Next
  rw [dif_pos h]

theorem InMemoryJobIterator.Next_value (it : InMemoryJobIterator)
    (h : it.i < it.jctxs.length) :
    it.Next = ((it.jctxs.get ⟨it.i, h⟩, none), { it with i := it.i + 1 }) := by
  unfold InMemoryJobIterator.Next
  rw [dif_neg (Nat.not_le.mpr h)]

theorem InMemoryJobIterator.afterCalls_eq (l : List JctxPtr) (n : Nat) :
    (NewInMemoryJobIterator l).afterCalls n = { i := min n l.length, jctxs := l } := by
  induction n with
  | zero => simp [InMemoryJobIterator.afterCalls, NewInMemoryJobIterator]
  | succ k ih =>
    simp only [InMemoryJobIterator.afterCalls]
    rw [ih]
    by_cases h : k < l.length
    · rw [InMemoryJobIterator.Next_value _ (by simpa using h)]
      simp only [InMemoryJobIterator.mk.injEq, and_true]
      omega
    · rw [InMemoryJobIterator.Next_exhausted _ (by simp; omega)]
      simp only [InMemoryJobIterator.mk.injEq, and_true]
      omega

theorem InMemoryJobIterator.nthNext_lt (l : List JctxPtr) (n : Nat) (h : n < l.length) :
    (NewInMemoryJobIterator l).nthNext n = (l.get ⟨n, h⟩, none) := by
  unfold InMemoryJobIterator.nthNext
  rw [InMemoryJobIterator.afterCalls_eq]
  have hm : min n l.length = n := by omega
  rw [InMemoryJobIterator.Next_value _ (by simp; omega)]
  simp [hm]

theorem InMemoryJobIterator.nthNext_ge (l : List JctxPtr) (n : Nat) (h : l.length ≤ n) :
    (NewInMemoryJobIterator l).nthNext n = (none, none) := by
  unfold InMemoryJobIterator.nthNext
  rw [InMemoryJobIterator.afterCalls_eq, InMemoryJobIterator.Next_exhausted _ (by simp; omega)]

/-- C10: the call number `n + 1` of `Next` on `NewInMemoryJobIterator l` returns
the element `l[n]` and no error when `n < len l`, and exhausted `(nil, nil)`
when `n ≥ len l`; `Next` never returns an error; from the first call that
finds the cursor at the end on, the iterator no longer changes and every call
returns exhausted; over a list without nil elements a call that returns
`(nil, nil)` is such a call; and over `[a, b, c]` the calls return `a`, `b`,
`c`, then exhausted. -/
theorem C10_in_memory_iterator (l : List JctxPtr) (n : Nat) :
    (∀ h : n < l.length, (NewInMemoryJobIterator l).nthNext n = (l.get ⟨n, h⟩, none)) ∧
      (l.length ≤ n → (NewInMemoryJobIterator l).nthNext n = (none, none)) ∧
      (∀ it : InMemoryJobIterator, it.Next.1.2 = none) ∧
      (l.length ≤ n → ∀ m, n ≤ m →
        (NewInMemoryJobIterator l).afterCalls m = (NewInMemoryJobIterator l).afterCalls n ∧
        (NewInMemoryJobIterator l).nthNext m = (none, none)) ∧
      ((∀ p ∈ l, p ≠ none) → (NewInMemoryJobIterator l).nthNext n = (none, none) →
        l.length ≤ n) ∧
      (∀ a b c : JobSchedulingContext,
        (List.range 5).map (NewInMemoryJobIterator [some a, some b, some c]).nthNext =
          [(some a, none), (some b, none), (some c, none), (none, none), (none, none)]) := by
  refine ⟨InMemoryJobIterator.nthNext_lt l n, InMemoryJobIterator.nthNext_ge l n, ?_, ?_, ?_, ?_⟩
  · intro it
    unfold InMemoryJobIterator.Next
    split <;> rfl
  · intro h m hm
    refine ⟨?_, InMemoryJobIterator.nthNext_ge l m (by omega)⟩
    rw [InMemoryJobIterator.afterCalls_eq, InMemoryJobIterator.afterCalls_eq]
    simp only [InMemoryJobIterator.mk.injEq, and_true]
    omega
  · intro hnil hres
    by_contra hlt
    have hlt2 : n < l.length := by omega
    rw [InMemoryJobIterator.nthNext_lt l n hlt2] at hres
    have h1 : l.get ⟨n, hlt2⟩ = none := congrArg Prod.fst hres
    exact hnil _ (List.get_mem l n hlt2) h1
  · intro a b c
    rfl

/-- Witness of C10: over a list of two contexts the third call returns
exhausted, and so does every later call. -/
theorem C10_in_memory_iterator_witness :
    (∀ p ∈ [some (mkJctx 0 "x" "q" none), some (mkJctx 1 "y" "q" none)], p ≠ none) ∧
    [some (mkJctx 0 "x" "q" none), some (mkJctx 1 "y" "q" none)].length ≤ 2 ∧
    (NewInMemoryJobIterator
      [some (mkJctx 0 "x" "q" none), some (mkJctx 1 "y" "q" none)]).nthNext 2 = (none, none) ∧
    (NewInMemoryJobIterator
      [some (mkJctx 0 "x" "q" none), some (mkJctx 1 "y" "q" none)]).nthNext 7 = (none, none) :=
  have h := C10_in_memory_iterator
    [some (mkJctx 0 "x" "q" none), some (mkJctx 1 "y" "q" none)] 2
  ⟨by decide, h.2.2.2.2.1 (by decide) (h.2.1 (by decide)), h.2.1 (by decide),
    (h.2.2.2.1 (by decide) 7 (by decide)).2⟩

/-! ## Snapshot isolation in the memory of backing arrays -/

namespace Aliased

theorem append_frame (slack : Nat → Nat) (m : Memory) (s : Slice) (x : JobSchedulingContext)
    (hs : s.arr < m.next) :
    (append slack m s x).1.arr < (append slack m s x).2.next ∧
      m.next ≤ (append slack m s x).2.next ∧
      ∀ a, a < m.next → s.arr ≠ a →
        (append slack m s x).2.arrays a = m.arrays a ∧ (append slack m s x).1.arr ≠ a := by
  unfold append
  by_cases h : s.len < s.cap
  · simp only [if_pos h]
    exact ⟨hs, Nat.le_refl _, fun a _ hne => ⟨Function.update_noteq (Ne.symm hne) _ _, hne⟩⟩
  · simp only [if_neg h]
    exact ⟨by omega, by omega,
      fun a ha _ => ⟨Function.update_noteq (by omega) _ _, by omega⟩⟩

theorem enqueueOne_frame (E : Externals) (slack : Nat → Nat) (acc : State × List String)
    (jctx : JobSchedulingContext) (hall : Allocated acc.1) :
    Allocated (enqueueOne E slack acc jctx).1 ∧
      ∀ a, Private acc.1 a →
        Private (enqueueOne E slack acc jctx).1 a ∧
        (enqueueOne E slack acc jctx).1.1.arrays a = acc.1.1.arrays a := by
  have hf := append_frame slack acc.1.1
    (acc.1.2.jctxsByQueue (targetQueue E acc.1.2.currentPool jctx)) jctx (hall _)
  simp only [enqueueOne]
  refine ⟨?_, fun a hpriv => ⟨⟨?_, ?_⟩, (hf.2.2 a hpriv.1 (hpriv.2 _)).1⟩⟩
  · intro Q
    by_cases hq : Q = targetQueue E acc.1.2.currentPool jctx
    · subst hq
      simpa using hf.1
    · simp only [Function.update_noteq hq]
      exact Nat.lt_of_lt_of_le (hall Q) hf.2.1
  · exact Nat.lt_of_lt_of_le hpriv.1 hf.2.1
  · intro Q
    by_cases hq : Q = targetQueue E acc.1.2.currentPool jctx
    · subst hq
      simpa using (hf.2.2 a hpriv.1 (hpriv.2 _)).2
    · simp only [Function.update_noteq hq]
      exact hpriv.2 Q

theorem enqueueLoop_frame (E : Externals) (slack : Nat → Nat)
    (batch : List JobSchedulingContext) :
    ∀ acc : State × List String, Allocated acc.1 →
      Allocated (batch.foldl (enqueueOne E slack) acc).1 ∧
      ∀ a, Private acc.1 a →
        Private (batch.foldl (enqueueOne E slack) acc).1 a ∧
        (batch.foldl (enqueueOne E slack) acc).1.1.arrays a = acc.1.1.arrays a := by
  induction batch with
  | nil => intro acc h1; exact ⟨h1, fun a h2 => ⟨h2, rfl⟩⟩
  | cons c rest ih =>
    intro acc h1
    rw [List.foldl_cons]
    obtain ⟨g1, g2⟩ := enqueueOne_frame E slack acc c h1
    obtain ⟨k1, k2⟩ := ih _ g1
    exact ⟨k1, fun a h2 => ⟨(k2 a (g2 a h2).1).1, (k2 a (g2 a h2).1).2.trans (g2 a h2).2⟩⟩

theorem sortQueue_frame (E : Externals) (st : State) (queue : String) (hall : Allocated st) :
    Allocated (sortQueue E st queue) ∧
      ∀ a, Private st a →
        Private (sortQueue E st queue) a ∧ (sortQueue E st queue).1.arrays a = st.1.arrays a := by
  refine ⟨hall, fun a hpriv => ⟨hpriv, ?_⟩⟩
  simp only [sortQueue]
  exact Function.update_noteq (Ne.symm (hpriv.2 queue)) _ _

theorem sortLoop_frame (E : Externals) (keys : List String) :
    ∀ st : State, Allocated st →
      Allocated (keys.foldl (sortQueue E) st) ∧
      ∀ a, Private st a →
        Private (keys.foldl (sortQueue E) st) a ∧
        (keys.foldl (sortQueue E) st).1.arrays a = st.1.arrays a := by
  induction keys with
  | nil => intro st h1; exact ⟨h1, fun a h2 => ⟨h2, rfl⟩⟩
  | cons k rest ih =>
    intro st h1
    rw [List.foldl_cons]
    obtain ⟨g1, g2⟩ := sortQueue_frame E st k h1
    obtain ⟨k1, k2⟩ := ih _ g1
    exact ⟨k1, fun a h2 => ⟨(k2 a (g2 a h2).1).1, (k2 a (g2 a h2).1).2.trans (g2 a h2).2⟩⟩

theorem EnqueueMany_frame (E : Externals) (slack : Nat → Nat) (st : State)
    (batch : List JobSchedulingContext) (hall : Allocated st) :
    Allocated (EnqueueMany E slack st batch) ∧
      ∀ a, Private st a →
        Private (EnqueueMany E slack st batch) a ∧
        (EnqueueMany E slack st batch).1.arrays a = st.1.arrays a := by
  obtain ⟨g1, g2⟩ := enqueueLoop_frame E slack batch (st, []) hall
  obtain ⟨k1, k2⟩ := sortLoop_frame E _ _ g1
  exact ⟨k1, fun a h2 => ⟨(k2 a (g2 a h2).1).1, (k2 a (g2 a h2).1).2.trans (g2 a h2).2⟩⟩

/-- Every state reached from a fresh repository has its slices in allocated
arrays. -/
theorem enqueueAll_allocated (E : Externals) (slack : Nat → Nat) (pool : String)
    (batches : List (List JobSchedulingContext)) :
    Allocated (enqueueAll E slack pool batches) := by
  have key : ∀ (bs : List (List JobSchedulingContext)) (st : State), Allocated st →
      Allocated (bs.foldl (EnqueueMany E slack) st) := by
    intro bs
    induction bs with
    | nil => intro st h; exact h
    | cons b rest ih =>
      intro st h
      rw [List.foldl_cons]
      exact ih _ (EnqueueMany_frame E slack st b h).1
  exact key batches _ (fun _ => Nat.zero_lt_one)

theorem run_empty (E : Externals) (slack : Nat → Nat) (calls : List Call) :
    ∀ (st : State) (it : InMemoryJobIterator), it.jctxs.len = 0 →
      run E slack st it calls = (List.range (nextCalls calls)).map (fun _ => (none, none)) := by
  induction calls with
  | nil => intro st it _; rfl
  | cons c rest ih =>
    intro st it h
    cases c with
    | EnqueueMany b => exact ih _ it h
    | Next =>
      have hn : it.Next st.1 = ((none, none), it) := by
        unfold InMemoryJobIterator.Next
        rw [if_pos (by omega)]
      simp only [run, nextCalls, hn]
      rw [ih st it h, List.range_succ_eq_map, List.map_cons, List.map_map]
      rfl

theorem run_private (E : Externals) (slack : Nat → Nat) (calls : List Call) :
    ∀ (st : State) (it : InMemoryJobIterator), Allocated st → Private st it.jctxs.arr →
      run E slack st it calls =
        (List.range (nextCalls calls)).map
          (fun j => (((st.1.arrays it.jctxs.arr).take it.jctxs.len)[it.i + j]?, none)) := by
  induction calls with
  | nil => intro st it _ _; rfl
  | cons c rest ih =>
    intro st it h1 h2
    cases c with
    | EnqueueMany b =>
      obtain ⟨g1, g2⟩ := EnqueueMany_frame E slack st b h1
      simp only [run, nextCalls]
      rw [ih _ it g1 (g2 _ h2).1, (g2 _ h2).2]
    | Next =>
      simp only [run, nextCalls]
      rw [List.range_succ_eq_map, List.map_cons, List.map_map]
      by_cases hi : it.i ≥ it.jctxs.len
      · have hn : it.Next st.1 = ((none, none), it) := by
          unfold InMemoryJobIterator.Next
          rw [if_pos hi]
        rw [hn]
        dsimp only
        rw [ih st it h1 h2]
        congr 1
        · rw [List.getElem?_take_eq_none (by omega)]
        · apply List.map_congr_left
          intro j _
          simp only [Function.comp]
          rw [List.getElem?_take_eq_none (by omega), List.getElem?_take_eq_none (by omega)]
      · have hn : it.Next st.1 =
            (((st.1.arrays it.jctxs.arr).get? it.i, none), { it with i := it.i + 1 }) := by
          unfold InMemoryJobIterator.Next
          rw [if_neg hi]
        rw [hn]
        dsimp only
        rw [ih st { i := it.i + 1, jctxs := it.jctxs } h1 h2]
        congr 1
        · rw [Nat.add_zero, List.getElem?_take_of_lt (by omega), List.get?_eq_getElem?]
        · apply List.map_congr_left
          intro j _
          simp only [Function.comp]
          rw [show it.i + 1 + j = it.i + j.succ by omega]

/-- C9: snapshot isolation. In a state whose slices lie in allocated arrays, the
iterator that `GetJobIterator` returns for a queue yields, over the `Next`
calls that follow and however many `EnqueueMany` calls (for this queue or
others) come before, between and after them, the contexts that were stored
for the queue when the iterator was obtained, in their stored order and
without error, and then exhausted; the job ids of these contexts are what
`GetQueueJobIds` returned at that time, and `GetJobIterator` leaves the
repository and the stored sequences as they were. -/
theorem C9_snapshot_isolation (E : Externals) (slack : Nat → Nat) (st : State) (Q : String)
    (calls : List Call) (hall : Allocated st) :
    run E slack (GetJobIterator slack st Q).2 (GetJobIterator slack st Q).1 calls =
        (List.range (nextCalls calls)).map
          (fun j => ((st.1.contents (st.2.jctxsByQueue Q))[j]?, none)) ∧
      (GetQueueJobIds st Q).1 =
        (st.1.contents (st.2.jctxsByQueue Q)).map (fun c => c.Job.Id) ∧
      (GetJobIterator slack st Q).2.2 = st.2 ∧
      (∀ Q2, (GetJobIterator slack st Q).2.1.contents (st.2.jctxsByQueue Q2) =
        st.1.contents (st.2.jctxsByQueue Q2)) := by
  refine ⟨?_, rfl, rfl, ?_⟩
  · by_cases h0 : (st.2.jctxsByQueue Q).len = 0
    · have e1 : GetJobIterator slack st Q = (NewInMemoryJobIterator nilSlice, st) := by
        simp [GetJobIterator, Clone, h0]
      rw [e1, run_empty E slack calls st _ rfl]
      apply List.map_congr_left
      intro j _
      simp [Memory.contents, h0]
    · have e1 : GetJobIterator slack st Q =
          (NewInMemoryJobIterator
            { arr := st.1.next, len := (st.2.jctxsByQueue Q).len,
              cap := (st.2.jctxsByQueue Q).len + slack 0 },
            ({ arrays := Function.update st.1.arrays st.1.next
                ((st.1.arrays (st.2.jctxsByQueue Q).arr).take (st.2.jctxsByQueue Q).len)
               next := st.1.next + 1 }, st.2)) := by
        simp [GetJobIterator, Clone, h0]
      rw [e1, run_private E slack calls]
      · apply List.map_congr_left
        intro j _
        simp [NewInMemoryJobIterator, Memory.contents, List.take_take]
      · intro Q2
        exact Nat.lt_succ_of_lt (hall Q2)
      · exact ⟨Nat.lt_succ_self _, fun Q2 => Nat.ne_of_lt (hall Q2)⟩
  · intro Q2
    by_cases h0 : (st.2.jctxsByQueue Q).len = 0
    · simp [GetJobIterator, Clone, h0]
    · have hne : (st.2.jctxsByQueue Q2).arr ≠ st.1.next := Nat.ne_of_lt (hall Q2)
      simp [GetJobIterator, Clone, h0, Memory.contents, Function.update_noteq hne]

/-- Witness of C9: an iterator obtained over queue `q` holding one context
still yields that context, and then exhausted, when a context that sorts
before it is enqueued to `q` between the calls. -/
theorem C9_snapshot_isolation_witness :
    Allocated (enqueueAll exampleExternals (fun _ => 1) "A" [[mkJctx 0 "xx" "q" none]]) ∧
    run exampleExternals (fun _ => 1)
      (GetJobIterator (fun _ => 1)
        (enqueueAll exampleExternals (fun _ => 1) "A" [[mkJctx 0 "xx" "q" none]]) "q").2
      (GetJobIterator (fun _ => 1)
        (enqueueAll exampleExternals (fun _ => 1) "A" [[mkJctx 0 "xx" "q" none]]) "q").1
      [Call.EnqueueMany [mkJctx 1 "x" "q" none], Call.Next,
        Call.EnqueueMany [mkJctx 2 "" "q" none], Call.Next, Call.Next] =
      [(some (mkJctx 0 "xx" "q" none), none), (none, none), (none, none)] :=
  ⟨enqueueAll_allocated _ _ _ _,
    (C9_snapshot_isolation exampleExternals (fun _ => 1)
      (enqueueAll exampleExternals (fun _ => 1) "A" [[mkJctx 0 "xx" "q" none]]) "q"
      [Call.EnqueueMany [mkJctx 1 "x" "q" none], Call.Next,
        Call.EnqueueMany [mkJctx 2 "" "q" none], Call.Next, Call.Next]
      (enqueueAll_allocated _ _ _ _)).1.trans (by decide)⟩

/-- The clone is what isolates the iterator: an iterator over the slice of the
repository itself, in the same state and before the same calls, yields the
context enqueued after it was built. -/
theorem shared_slice_not_isolated :
    run exampleExternals (fun _ => 1)
      (enqueueAll exampleExternals (fun _ => 1) "A" [[mkJctx 0 "xx" "q" none]])
      (NewInMemoryJobIterator
        ((enqueueAll exampleExternals (fun _ => 1) "A"
          [[mkJctx 0 "xx" "q" none]]).2.jctxsByQueue "q"))
      [Call.EnqueueMany [mkJctx 1 "x" "q" none], Call.Next,
        Call.EnqueueMany [mkJctx 2 "" "q" none], Call.Next, Call.Next] =
      [(some (mkJctx 1 "x" "q" none), none), (none, none), (none, none)] := by
  decide

/-! ## The repository of sequences is the repository in memory, read through its slices -/

theorem repository_ext (a b : Scheduling.InMemoryJobRepository)
    (h1 : ∀ Q, a.jctxsByQueue Q = b.jctxsByQueue Q) (h2 : ∀ x, a.jctxsById x = b.jctxsById x)
    (h3 : a.currentPool = b.currentPool) : a = b := by
  cases a
  cases b
  simp only [Scheduling.InMemoryJobRepository.mk.injEq]
  exact ⟨funext h1, funext h2, h3⟩

theorem append_contents (slack : Nat → Nat) (m : Memory) (s : Slice)
    (x : JobSchedulingContext) (hlen : s.len ≤ (m.arrays s.arr).length) :
    (append slack m s x).2.contents (append slack m s x).1 = m.contents s ++ [x] ∧
      (append slack m s x).1.len ≤
        ((append slack m s x).2.arrays (append slack m s x).1.arr).length := by
  have htl : ((m.arrays s.arr).take s.len).length = s.len := by
    rw [List.length_take]; omega
  unfold append
  by_cases h : s.len < s.cap
  · simp only [if_pos h, Memory.contents, Function.update_same]
    constructor
    · rw [List.append_assoc, List.take_append_eq_append_take, htl]
      simp [List.take_of_length_le (Nat.le_of_eq htl)]
    · simp only [List.length_append, htl, List.length_singleton]
      omega
  · simp only [if_neg h, Memory.contents, Function.update_same]
    constructor
    · rw [List.take_of_length_le]
      simp only [List.length_append, htl, List.length_singleton]
      omega
    · simp only [List.length_append, htl, List.length_singleton]
      omega

theorem append_other (slack : Nat → Nat) (m : Memory) (s : Slice)
    (x : JobSchedulingContext) (a : Nat) (ha : a < m.next) (hne : a ≠ s.arr ∨ s.cap = 0) :
    (append slack m s x).2.arrays a = m.arrays a := by
  unfold append
  by_cases h : s.len < s.cap
  · simp only [if_pos h]
    rcases hne with hne | hne
    · exact Function.update_noteq hne _ _
    · omega
  · simp only [if_neg h]
    exact Function.update_noteq (by omega) _ _

theorem append_arr (slack : Nat → Nat) (m : Memory) (s : Slice)
    (x : JobSchedulingContext) (hs : s.arr < m.next) (hnil : s.arr = 0 → s.cap = 0) :
    (append slack m s x).1.arr ≠ 0 ∧
      ((append slack m s x).1.arr = s.arr ∨ (append slack m s x).1.arr = m.next) := by
  unfold append
  by_cases h : s.len < s.cap
  · simp only [if_pos h]
    exact ⟨fun e => by have := hnil e; omega, Or.inl trivial⟩
  · simp only [if_neg h]
    exact ⟨by omega, Or.inr trivial⟩

theorem enqueueOne_refines (E : Externals) (slack : Nat → Nat) (acc : State × List String)
    (c : JobSchedulingContext) (hinv : Separated acc.1) :
    Separated (enqueueOne E slack acc c).1 ∧
      abstraction (enqueueOne E slack acc c).1 =
        (Scheduling.enqueueOne E (abstraction acc.1, acc.2) c).1 ∧
      (enqueueOne E slack acc c).2 =
        (Scheduling.enqueueOne E (abstraction acc.1, acc.2) c).2 := by
  obtain ⟨hall, hlen, hnil, hsep⟩ := hinv
  have hc := append_contents slack acc.1.1
    (acc.1.2.jctxsByQueue (targetQueue E acc.1.2.currentPool c)) c (hlen _)
  have ha := append_arr slack acc.1.1
    (acc.1.2.jctxsByQueue (targetQueue E acc.1.2.currentPool c)) c (hall _)
    (fun e => (hnil _ e).2)
  have hf := append_frame slack acc.1.1
    (acc.1.2.jctxsByQueue (targetQueue E acc.1.2.currentPool c)) c (hall _)
  have hother : ∀ Q, Q ≠ targetQueue E acc.1.2.currentPool c →
      (append slack acc.1.1
        (acc.1.2.jctxsByQueue (targetQueue E acc.1.2.currentPool c)) c).2.arrays
        (acc.1.2.jctxsByQueue Q).arr = acc.1.1.arrays (acc.1.2.jctxsByQueue Q).arr := by
    intro Q hq
    apply append_other _ _ _ _ _ (hall Q)
    by_cases e : (acc.1.2.jctxsByQueue Q).arr =
        (acc.1.2.jctxsByQueue (targetQueue E acc.1.2.currentPool c)).arr
    · have h0 := hsep Q _ hq e
      exact Or.inr (hnil _ (e ▸ h0)).2
    · exact Or.inl e
  refine ⟨⟨(enqueueOne_frame E slack acc c hall).1, ?_, ?_, ?_⟩, ?_, rfl⟩
  · intro Q
    simp only [enqueueOne]
    by_cases hq : Q = targetQueue E acc.1.2.currentPool c
    · subst hq
      simpa using hc.2
    · simp only [Function.update_noteq hq]
      rw [hother Q hq]
      exact hlen Q
  · intro Q
    simp only [enqueueOne]
    by_cases hq : Q = targetQueue E acc.1.2.currentPool c
    · subst hq
      intro e
      exact absurd (by simpa using e) ha.1
    · simp only [Function.update_noteq hq]
      exact hnil Q
  · intro Q Q2 hne
    simp only [enqueueOne]
    by_cases hq : Q = targetQueue E acc.1.2.currentPool c
    · have hq2 : Q2 ≠ targetQueue E acc.1.2.currentPool c := fun e => hne (hq.trans e.symm)
      subst hq
      simp only [Function.update_same, Function.update_noteq hq2]
      intro e
      rcases ha.2 with h1 | h1
      · rw [h1] at e ⊢
        exact hsep _ Q2 hne e
      · have := hall Q2
        omega
    · simp only [Function.update_noteq hq]
      by_cases hq2 : Q2 = targetQueue E acc.1.2.currentPool c
      · subst hq2
        simp only [Function.update_same]
        intro e
        rcases ha.2 with h1 | h1
        · rw [h1] at e
          exact hsep Q _ hne e
        · have := hall Q
          omega
      · simp only [Function.update_noteq hq2]
        exact hsep Q Q2 hne
  · apply repository_ext
    · intro Q
      simp only [abstraction, enqueueOne, Scheduling.enqueueOne]
      by_cases hq : Q = targetQueue E acc.1.2.currentPool c
      · subst hq
        simpa using hc.1
      · simp only [Function.update_noteq hq, Memory.contents]
        rw [hother Q hq]
    · intro x
      rfl
    · rfl

theorem enqueueLoop_refines (E : Externals) (slack : Nat → Nat)
    (batch : List JobSchedulingContext) :
    ∀ acc : State × List String, Separated acc.1 →
      Separated (batch.foldl (enqueueOne E slack) acc).1 ∧
      abstraction (batch.foldl (enqueueOne E slack) acc).1 =
        (batch.foldl (Scheduling.enqueueOne E) (abstraction acc.1, acc.2)).1 ∧
      (batch.foldl (enqueueOne E slack) acc).2 =
        (batch.foldl (Scheduling.enqueueOne E) (abstraction acc.1, acc.2)).2 := by
  induction batch with
  | nil => intro acc h; exact ⟨h, rfl, rfl⟩
  | cons c rest ih =>
    intro acc h
    rw [List.foldl_cons, List.foldl_cons]
    obtain ⟨g1, g2, g3⟩ := enqueueOne_refines E slack acc c h
    obtain ⟨k1, k2, k3⟩ := ih _ g1
    rw [g2, g3] at k2 k3
    exact ⟨k1, k2, k3⟩

theorem sortQueue_refines (E : Externals) (hperm : SortFuncPermutes E) (st : State)
    (queue : String) (hinv : Separated st) :
    Separated (sortQueue E st queue) ∧
      abstraction (sortQueue E st queue) = Scheduling.sortQueue E (abstraction st) queue := by
  obtain ⟨hall, hlen, hnil, hsep⟩ := hinv
  have hsl : (E.SortFunc (jctxCompare E)
      ((st.1.arrays (st.2.jctxsByQueue queue).arr).take (st.2.jctxsByQueue queue).len)).length =
      (st.2.jctxsByQueue queue).len := by
    rw [(hperm _ _).length_eq, List.length_take]
    have := hlen queue
    omega
  refine ⟨⟨hall, ?_, hnil, hsep⟩, ?_⟩
  · intro Q
    simp only [sortQueue]
    by_cases e : (st.2.jctxsByQueue Q).arr = (st.2.jctxsByQueue queue).arr
    · rw [e, Function.update_same, List.length_append, hsl, List.length_drop]
      have h1 := hlen queue
      by_cases hq : Q = queue
      · subst hq; omega
      · have h0 := (hnil Q (hsep Q queue hq e)).1
        omega
    · rw [Function.update_noteq e]
      exact hlen Q
  · apply repository_ext
    · intro Q
      simp only [abstraction, sortQueue, Scheduling.sortQueue, Memory.contents]
      by_cases hq : Q = queue
      · subst hq
        rw [Function.update_same, Function.update_same, List.take_append_eq_append_take, hsl]
        simp [List.take_of_length_le (Nat.le_of_eq hsl)]
      · rw [Function.update_noteq hq]
        by_cases e : (st.2.jctxsByQueue Q).arr = (st.2.jctxsByQueue queue).arr
        · have h0 := (hnil Q (hsep Q queue hq e)).1
          rw [h0]
          simp
        · rw [Function.update_noteq e]
    · intro x
      rfl
    · rfl

theorem sortLoop_refines (E : Externals) (hperm : SortFuncPermutes E) (keys : List String) :
    ∀ st : State, Separated st →
      Separated (keys.foldl (sortQueue E) st) ∧
      abstraction (keys.foldl (sortQueue E) st) =
        keys.foldl (Scheduling.sortQueue E) (abstraction st) := by
  induction keys with
  | nil => intro st h; exact ⟨h, rfl⟩
  | cons k rest ih =>
    intro st h
    rw [List.foldl_cons, List.foldl_cons]
    obtain ⟨g1, g2⟩ := sortQueue_refines E hperm st k h
    obtain ⟨k1, k2⟩ := ih _ g1
    rw [g2] at k2
    exact ⟨k1, k2⟩

theorem EnqueueMany_refines (E : Externals) (hperm : SortFuncPermutes E) (slack : Nat → Nat)
    (st : State) (batch : List JobSchedulingContext) (hinv : Separated st) :
    Separated (EnqueueMany E slack st batch) ∧
      abstraction (EnqueueMany E slack st batch) =
        Scheduling.EnqueueMany E (abstraction st) batch := by
  obtain ⟨g1, g2, g3⟩ := enqueueLoop_refines E slack batch (st, []) hinv
  obtain ⟨k1, k2⟩ := sortLoop_refines E hperm _ _ g1
  refine ⟨k1, ?_⟩
  simp only [EnqueueMany, Scheduling.EnqueueMany]
  rw [k2, g2, g3]

/-- The repository of sequences reached by a sequence of `EnqueueMany` calls is
the repository in memory reached by the same calls, read through its slices:
appending and sorting in place on the backing arrays stores, queue by queue,
the sequences that the repository of sequences holds. -/
theorem enqueueAll_refines (E : Externals) (hperm : SortFuncPermutes E) (slack : Nat → Nat)
    (pool : String) (batches : List (List JobSchedulingContext)) :
    abstraction (enqueueAll E slack pool batches) = Scheduling.enqueueAll E pool batches := by
  have key : ∀ (bs : List (List JobSchedulingContext)) (st : State), Separated st →
      abstraction (bs.foldl (EnqueueMany E slack) st) =
        bs.foldl (Scheduling.EnqueueMany E) (abstraction st) := by
    intro bs
    induction bs with
    | nil => intro st _; rfl
    | cons b rest ih =>
      intro st h
      rw [List.foldl_cons, List.foldl_cons]
      obtain ⟨g1, g2⟩ := EnqueueMany_refines E hperm slack st b h
      rw [ih _ g1, g2]
  have h0 : Separated (NewInMemoryJobRepository pool) :=
    ⟨fun _ => Nat.zero_lt_one, fun _ => Nat.zero_le _, fun _ _ => ⟨rfl, rfl⟩, fun _ _ _ _ => rfl⟩
  exact key batches _ h0

end Aliased

/-! ## MultiJobsIterator -/

theorem MultiJobsIterator.NextLog_done (it : MultiJobsIterator) (h : it.its.length ≤ it.i) :
    it.NextLog = (((none, none), it), []) := by
  rw [MultiJobsIterator.NextLog, dif_pos h]

theorem MultiJobsIterator.NextLog_error (it : MultiJobsIterator) (h : it.i < it.its.length)
    (e : GoError) (he : (it.its.get ⟨it.i, h⟩).Next.1.2 = some e) :
    it.NextLog =
      (((none, some e), { i := it.i, its := it.its.set it.i (it.its.get ⟨it.i, h⟩).Next.2 }),
        [it.i]) := by
  rw [MultiJobsIterator.NextLog, dif_neg (Nat.not_le.mpr h)]
  simp only [he]

theorem MultiJobsIterator.NextLog_skip (it : MultiJobsIterator) (h : it.i < it.its.length)
    (he : (it.its.get ⟨it.i, h⟩).Next.1 = (none, none)) :
    it.NextLog =
      ((MultiJobsIterator.NextLog
          { i := it.i + 1, its := it.its.set it.i (it.its.get ⟨it.i, h⟩).Next.2 }).1,
        it.i :: (MultiJobsIterator.NextLog
          { i := it.i + 1, its := it.its.set it.i (it.its.get ⟨it.i, h⟩).Next.2 }).2) := by
  rw [MultiJobsIterator.NextLog, dif_neg (Nat.not_le.mpr h)]
  simp only [he]

theorem MultiJobsIterator.NextLog_value (it : MultiJobsIterator) (h : it.i < it.its.length)
    (v : JobSchedulingContext) (he : (it.its.get ⟨it.i, h⟩).Next.1 = (some v, none)) :
    it.NextLog =
      (((some v, none), { i := it.i, its := it.its.set it.i (it.its.get ⟨it.i, h⟩).Next.2 }),
        [it.i]) := by
  rw [MultiJobsIterator.NextLog, dif_neg (Nat.not_le.mpr h)]
  simp only [he]

theorem JobContextIterator.Next_cases (c : JobContextIterator) :
    (∃ e, c.Next.1.2 = some e) ∨ c.Next.1 = (none, none) ∨ ∃ v, c.Next.1 = (some v, none) := by
  rcases h : c.Next.1 with ⟨v, err⟩
  cases err with
  | some e => exact Or.inl ⟨e, rfl⟩
  | none =>
    cases v with
    | none => exact Or.inr (Or.inl rfl)
    | some v => exact Or.inr (Or.inr ⟨v, rfl⟩)

/-- Induction along the recursion of `MultiJobsIterator.Next`. -/
theorem MultiJobsIterator.induction_on {P : MultiJobsIterator → Prop}
    (hdone : ∀ it : MultiJobsIterator, it.its.length ≤ it.i → P it)
    (hstep : ∀ (it : MultiJobsIterator) (h : it.i < it.its.length),
      P { i := it.i + 1, its := it.its.set it.i (it.its.get ⟨it.i, h⟩).Next.2 } → P it) :
    ∀ it, P it := by
  have key : ∀ (n : Nat) (it : MultiJobsIterator), it.its.length - it.i = n → P it := by
    intro n
    induction n with
    | zero => intro it h; exact hdone it (by omega)
    | succ k ih =>
      intro it h
      have hlt : it.i < it.its.length := by omega
      apply hstep it hlt
      apply ih
      simp only [List.length_set]
      omega
  exact fun it => key _ it rfl

theorem MultiJobsIterator.NextWithin_eq (it : MultiJobsIterator) :
    ∀ depth, it.its.length - it.i < depth →
      MultiJobsIterator.NextWithin depth it = some it.NextLog := by
  induction it using MultiJobsIterator.induction_on with
  | hdone it h =>
    intro depth hd
    cases depth with
    | zero => omega
    | succ d =>
      rw [MultiJobsIterator.NextWithin, dif_pos h, MultiJobsIterator.NextLog_done it h]
  | hstep it h ih =>
    intro depth hd
    cases depth with
    | zero => omega
    | succ d =>
      rw [MultiJobsIterator.NextWithin, dif_neg (Nat.not_le.mpr h)]
      rcases (it.its.get ⟨it.i, h⟩).Next_cases with ⟨e, he⟩ | he | ⟨v, he⟩
      · rw [MultiJobsIterator.NextLog_error it h e he]
        simp only [he]
      · rw [MultiJobsIterator.NextLog_skip it h he]
        simp only [he]
        rw [ih d (by simp only [List.length_set]; omega)]
        rfl
      · rw [MultiJobsIterator.NextLog_value it h v he]
        simp only [he]

theorem MultiJobsIterator.NextLog_length (it : MultiJobsIterator) :
    it.NextLog.1.2.its.length = it.its.length := by
  induction it using MultiJobsIterator.induction_on with
  | hdone it h => rw [MultiJobsIterator.NextLog_done it h]
  | hstep it h ih =>
    rcases (it.its.get ⟨it.i, h⟩).Next_cases with ⟨e, he⟩ | he | ⟨v, he⟩
    · rw [MultiJobsIterator.NextLog_error it h e he]; simp
    · rw [MultiJobsIterator.NextLog_skip it h he]
      simpa using ih
    · rw [MultiJobsIterator.NextLog_value it h v he]; simp

/-- The children called by one `Next` are the consecutive children from the
cursor on; the cursor ends on the last of them when it returns a value or an
error, and after them when it returns exhausted. -/
theorem MultiJobsIterator.NextLog_log (it : MultiJobsIterator) :
    it.NextLog.2 = List.range' it.i it.NextLog.2.length ∧
      it.i + it.NextLog.2.length ≤ max it.i it.its.length ∧
      (it.NextLog.1.1 = (none, none) →
        it.NextLog.1.2.i = it.i + it.NextLog.2.length ∧
        it.NextLog.1.2.its.length ≤ it.NextLog.1.2.i) ∧
      (it.NextLog.1.1 ≠ (none, none) →
        it.NextLog.1.2.i + 1 = it.i + it.NextLog.2.length) := by
  induction it using MultiJobsIterator.induction_on with
  | hdone it h =>
    rw [MultiJobsIterator.NextLog_done it h]
    simp
    omega
  | hstep it h ih =>
    rcases (it.its.get ⟨it.i, h⟩).Next_cases with ⟨e, he⟩ | he | ⟨v, he⟩
    · rw [MultiJobsIterator.NextLog_error it h e he]
      simp [List.range']
      omega
    · rw [MultiJobsIterator.NextLog_skip it h he]
      obtain ⟨h1, h2, h3, h4⟩ := ih
      simp only [List.length_set] at h2 h3 h4
      simp only [List.length_cons, List.range']
      refine ⟨by rw [← h1], by omega, ?_, ?_⟩
      · intro hr
        have := h3 hr
        omega
      · intro hr
        have := h4 hr
        omega
    · rw [MultiJobsIterator.NextLog_value it h v he]
      simp [List.range']
      omega

/-- One `Next` leaves alone the children that it does not call. -/
theorem MultiJobsIterator.NextLog_frame (it : MultiJobsIterator) (k : Nat)
    (hk : k < it.i ∨ it.i + it.NextLog.2.length ≤ k) :
    it.NextLog.1.2.its[k]? = it.its[k]? := by
  induction it using MultiJobsIterator.induction_on with
  | hdone it h => rw [MultiJobsIterator.NextLog_done it h]
  | hstep it h ih =>
    rcases (it.its.get ⟨it.i, h⟩).Next_cases with ⟨e, he⟩ | he | ⟨v, he⟩
    · rw [MultiJobsIterator.NextLog_error it h e he] at hk ⊢
      simp only [List.length_singleton] at hk
      exact List.getElem?_set_ne (by omega)
    · rw [MultiJobsIterator.NextLog_skip it h he] at hk ⊢
      simp only [List.length_cons] at hk
      have hk2 : k < it.i + 1 ∨
          it.i + 1 + (MultiJobsIterator.NextLog
            { i := it.i + 1,
              its := it.its.set it.i (it.its.get ⟨it.i, h⟩).Next.2 }).2.length ≤ k := by
        omega
      rw [ih hk2]
      exact List.getElem?_set_ne (by omega)
    · rw [MultiJobsIterator.NextLog_value it h v he] at hk ⊢
      simp only [List.length_singleton] at hk
      exact List.getElem?_set_ne (by omega)

theorem MultiJobsIterator.NextLog_cursor (it : MultiJobsIterator) :
    it.i ≤ it.NextLog.1.2.i := by
  induction it using MultiJobsIterator.induction_on with
  | hdone it h => rw [MultiJobsIterator.NextLog_done it h]
  | hstep it h ih =>
    rcases (it.its.get ⟨it.i, h⟩).Next_cases with ⟨e, he⟩ | he | ⟨v, he⟩
    · rw [MultiJobsIterator.NextLog_error it h e he]
    · rw [MultiJobsIterator.NextLog_skip it h he]
      exact Nat.le_of_succ_le ih
    · rw [MultiJobsIterator.NextLog_value it h v he]

theorem MultiJobsIterator.NextLog_exclusive (it : MultiJobsIterator) :
    it.NextLog.1.1.1 = none ∨ it.NextLog.1.1.2 = none := by
  induction it using MultiJobsIterator.induction_on with
  | hdone it h => rw [MultiJobsIterator.NextLog_done it h]; exact Or.inl rfl
  | hstep it h ih =>
    rcases (it.its.get ⟨it.i, h⟩).Next_cases with ⟨e, he⟩ | he | ⟨v, he⟩
    · rw [MultiJobsIterator.NextLog_error it h e he]; exact Or.inl rfl
    · rw [MultiJobsIterator.NextLog_skip it h he]; exact ih
    · rw [MultiJobsIterator.NextLog_value it h v he]; exact Or.inr rfl

theorem MultiJobsIterator.Next_done (it : MultiJobsIterator) (h : it.its.length ≤ it.i) :
    ∀ n, it.afterCalls n = it ∧ (it.afterCalls n).NextLog = (((none, none), it), []) := by
  intro n
  induction n with
  | zero => exact ⟨rfl, MultiJobsIterator.NextLog_done it h⟩
  | succ k ih =>
    have h1 : it.afterCalls (k + 1) = it := by
      simp only [MultiJobsIterator.afterCalls, MultiJobsIterator.Next]
      rw [ih.2]
    rw [h1]
    exact ⟨rfl, MultiJobsIterator.NextLog_done it h⟩

/-- An error of the child that `Next` reaches after a run of exhausted children
is returned as it is. -/
theorem MultiJobsIterator.NextLog_reaches_error (e : GoError) (j : Nat) :
    ∀ (d : Nat) (it : MultiJobsIterator), it.i + d = j →
      (∀ k, it.i ≤ k → k < j → ∃ c, it.its[k]? = some c ∧ c.Next.1 = (none, none)) →
      (∃ c, it.its[j]? = some c ∧ c.Next.1.2 = some e) →
      it.NextLog.1.1 = (none, some e) ∧ it.NextLog.1.2.i = j ∧
        it.NextLog.2 = List.range' it.i (j - it.i + 1) := by
  intro d
  induction d with
  | zero =>
    intro it hij _ herr
    obtain ⟨c, hc, he⟩ := herr
    have hi : it.i = j := by omega
    rw [← hi] at hc
    have hlt : it.i < it.its.length := (List.getElem?_eq_some.mp hc).1
    have hget : it.its.get ⟨it.i, hlt⟩ = c := (List.getElem?_eq_some.mp hc).2
    rw [MultiJobsIterator.NextLog_error it hlt e (by rw [hget]; exact he)]
    refine ⟨rfl, hi, ?_⟩
    rw [← hi]
    simp [List.range']
  | succ d ih =>
    intro it hij hskip herr
    obtain ⟨c, hc, he⟩ := hskip it.i (Nat.le_refl _) (by omega)
    have hlt : it.i < it.its.length := (List.getElem?_eq_some.mp hc).1
    have hget : it.its.get ⟨it.i, hlt⟩ = c := (List.getElem?_eq_some.mp hc).2
    rw [MultiJobsIterator.NextLog_skip it hlt (by rw [hget]; exact he)]
    have hrec := ih { i := it.i + 1, its := it.its.set it.i (it.its.get ⟨it.i, hlt⟩).Next.2 }
      (by show it.i + 1 + d = j; omega)
      (by
        intro k hk1 hk2
        have hk1b : it.i + 1 ≤ k := hk1
        obtain ⟨c2, hc2, he2⟩ := hskip k (by omega) hk2
        refine ⟨c2, ?_, he2⟩
        show (it.its.set it.i _)[k]? = some c2
        rw [List.getElem?_set_ne (by omega)]
        exact hc2)
      (by
        obtain ⟨c2, hc2, he2⟩ := herr
        refine ⟨c2, ?_, he2⟩
        show (it.its.set it.i _)[j]? = some c2
        rw [List.getElem?_set_ne (by omega)]
        exact hc2)
    obtain ⟨r1, r2, r3⟩ := hrec
    refine ⟨r1, r2, ?_⟩
    rw [r3]
    have : j - it.i + 1 = (j - (it.i + 1) + 1) + 1 := by omega
    rw [this]
    rfl

theorem MultiJobsIterator.value_then_error (v : JobSchedulingContext) (e : GoError) :
    (NewMultiJobsIterator [scriptedIterator [(some v, none), (none, some e)]]).nthNext 0 =
        (some v, none) ∧
      (NewMultiJobsIterator [scriptedIterator [(some v, none), (none, some e)]]).nthNext 1 =
        (none, some e) := by
  have h1 := MultiJobsIterator.NextLog_value
    (NewMultiJobsIterator [scriptedIterator [(some v, none), (none, some e)]])
    Nat.zero_lt_one v rfl
  constructor
  · simp only [MultiJobsIterator.nthNext, MultiJobsIterator.afterCalls, MultiJobsIterator.Next]
    rw [h1]
  · simp only [MultiJobsIterator.nthNext, MultiJobsIterator.afterCalls, MultiJobsIterator.Next]
    rw [h1]
    rw [MultiJobsIterator.NextLog_error _ _ e _]
    · exact Nat.zero_lt_one
    · rfl

/-- C12: when the `Next` call of a `MultiJobsIterator` with its cursor `i` among
the children finds the children `i, ..., j - 1` exhausted and gets an error
from child `j`, it returns no value and that error, leaves the cursor at `j`,
has called the children `i, ..., j` and no other, and leaves every child
after `j` (and before `i`) as it was. A single child that yields a value and
then an error gives the value on the first `Next` and that error on the
second. -/
theorem C12_multi_error_propagates (it : MultiJobsIterator) (j : Nat) (e : GoError)
    (hij : it.i ≤ j)
    (hskip : ∀ k, it.i ≤ k → k < j → ∃ c, it.its[k]? = some c ∧ c.Next.1 = (none, none))
    (herr : ∃ c, it.its[j]? = some c ∧ c.Next.1.2 = some e) :
    it.Next.1 = (none, some e) ∧ it.Next.2.i = j ∧
      it.NextLog.2 = List.range' it.i (j - it.i + 1) ∧
      (∀ k, j < k → it.Next.2.its[k]? = it.its[k]?) ∧
      (∀ k, k < it.i → it.Next.2.its[k]? = it.its[k]?) ∧
      (∀ (v : JobSchedulingContext) (e2 : GoError),
        (NewMultiJobsIterator [scriptedIterator [(some v, none), (none, some e2)]]).nthNext 0 =
          (some v, none) ∧
        (NewMultiJobsIterator [scriptedIterator [(some v, none), (none, some e2)]]).nthNext 1 =
          (none, some e2)) := by
  obtain ⟨h1, h2, h3⟩ :=
    MultiJobsIterator.NextLog_reaches_error e j (j - it.i) it (by omega) hskip herr
  refine ⟨h1, h2, h3, ?_, ?_, MultiJobsIterator.value_then_error⟩
  · intro k hk
    apply MultiJobsIterator.NextLog_frame it k
    rw [h3, List.length_range']
    omega
  · intro k hk
    exact MultiJobsIterator.NextLog_frame it k (Or.inl hk)

/-- Witness of C12: the first child is exhausted, the second returns an error,
and the third, which has a value to give, is not called. -/
theorem C12_multi_error_propagates_witness :
    (NewMultiJobsIterator [scriptedIterator [], scriptedIterator [(none, some ⟨"boom"⟩)],
        scriptedIterator [(some (mkJctx 0 "x" "q" none), none)]]).Next.1 =
        (none, some ⟨"boom"⟩) ∧
      (NewMultiJobsIterator [scriptedIterator [], scriptedIterator [(none, some ⟨"boom"⟩)],
        scriptedIterator [(some (mkJctx 0 "x" "q" none), none)]]).Next.2.i = 1 ∧
      (NewMultiJobsIterator [scriptedIterator [], scriptedIterator [(none, some ⟨"boom"⟩)],
        scriptedIterator [(some (mkJctx 0 "x" "q" none), none)]]).NextLog.2 = [0, 1] :=
  have h := C12_multi_error_propagates
    (NewMultiJobsIterator [scriptedIterator [], scriptedIterator [(none, some ⟨"boom"⟩)],
      scriptedIterator [(some (mkJctx 0 "x" "q" none), none)]]) 1 ⟨"boom"⟩
    (Nat.zero_le 1)
    (fun k _ hk => by
      have hk0 : k = 0 := by omega
      subst hk0
      exact ⟨_, rfl, rfl⟩)
    ⟨_, rfl, rfl⟩
  ⟨h.1, h.2.1, h.2.2.1⟩

/-- C17: for arbitrary children, once `MultiJobsIterator.Next` has returned
exhausted `(nil, nil)` the cursor is at the end, and every later call returns
exhausted, calls no child and leaves the iterator as it is, whatever the
children would return; a call never moves the cursor back nor past the number
of children, which does not change; it calls only children from the cursor on
and leaves the children behind the cursor as they were; and it never returns
a value together with an error. -/
theorem C17_multi_exhausted_stays (it : MultiJobsIterator) :
    (it.Next.1 = (none, none) →
        it.Next.2.its.length ≤ it.Next.2.i ∧
        ∀ n, (it.Next.2.afterCalls n).NextLog = (((none, none), it.Next.2), [])) ∧
      it.i ≤ it.Next.2.i ∧
      it.Next.2.its.length = it.its.length ∧
      (it.i ≤ it.its.length → it.Next.2.i ≤ it.Next.2.its.length) ∧
      (∀ k ∈ it.NextLog.2, it.i ≤ k) ∧
      (∀ k, k < it.i → it.Next.2.its[k]? = it.its[k]?) ∧
      (it.Next.1.1 = none ∨ it.Next.1.2 = none) := by
  obtain ⟨h1, h2, h3, h4⟩ := MultiJobsIterator.NextLog_log it
  have hlen := MultiJobsIterator.NextLog_length it
  have hcur : it.i ≤ it.NextLog.1.2.i ∧
      (it.i ≤ it.its.length → it.NextLog.1.2.i ≤ it.its.length) := by
    refine ⟨MultiJobsIterator.NextLog_cursor it, fun hi => ?_⟩
    by_cases hr : it.NextLog.1.1 = (none, none)
    · have := h3 hr
      omega
    · have := h4 hr
      omega
  refine ⟨?_, hcur.1, hlen, ?_, ?_, ?_, MultiJobsIterator.NextLog_exclusive it⟩
  · intro hr
    have hend := (h3 hr).2
    exact ⟨hend, fun n => (MultiJobsIterator.Next_done _ hend n).2⟩
  · intro hi
    show it.NextLog.1.2.i ≤ it.NextLog.1.2.its.length
    rw [hlen]
    exact hcur.2 hi
  · intro k hk
    rw [h1] at hk
    exact (List.mem_range'_1.mp hk).1
  · intro k hk
    exact MultiJobsIterator.NextLog_frame it k (Or.inl hk)

/-- Witness of C17: a child that reports exhausted and would yield a value on
its next call. Once the iterator has returned exhausted it stays so. -/
theorem C17_multi_exhausted_stays_witness :
    (NewMultiJobsIterator
        [scriptedIterator [(none, none), (some (mkJctx 0 "x" "q" none), none)]]).Next.1 =
        (none, none) ∧
      ((NewMultiJobsIterator
        [scriptedIterator [(none, none), (some (mkJctx 0 "x" "q" none), none)]]).Next.2.afterCalls
          3).NextLog.1.1 = (none, none) :=
  have h0 : (NewMultiJobsIterator
      [scriptedIterator [(none, none), (some (mkJctx 0 "x" "q" none), none)]]).Next.1 =
      (none, none) := by
    simp only [MultiJobsIterator.Next]
    rw [MultiJobsIterator.NextLog_skip
      (NewMultiJobsIterator
        [scriptedIterator [(none, none), (some (mkJctx 0 "x" "q" none), none)]])
      Nat.zero_lt_one rfl]
    exact congrArg (fun r => r.1.1)
      (MultiJobsIterator.NextLog_done
        { i := 1
          its := [(scriptedIterator
            [(none, none), (some (mkJctx 0 "x" "q" none), none)]).Next.2] }
        (Nat.le_refl 1))
  ⟨h0, by
    rw [((C17_multi_exhausted_stays (NewMultiJobsIterator
      [scriptedIterator [(none, none), (some (mkJctx 0 "x" "q" none), none)]])).1 h0).2 3]⟩

/-- C19: `MultiJobsIterator.Next` ends on every list of children. The measure
is the number of children from the cursor on: an invocation on an exhausted
child invokes `Next` once more with the cursor one further and this measure
smaller, so `len - i + 1` nested invocations are enough to return; and one
`Next` calls at most `len - i` children, each at most once, namely
consecutive children from the cursor on. -/
theorem C19_multi_next_terminates (it : MultiJobsIterator) :
    (∀ depth, it.its.length - it.i < depth →
        MultiJobsIterator.NextWithin depth it = some it.NextLog) ∧
      it.NextLog.2.length ≤ it.its.length - it.i ∧
      it.NextLog.2 = List.range' it.i it.NextLog.2.length ∧
      it.NextLog.2.Nodup ∧
      (∀ h : it.i < it.its.length, (it.its.get ⟨it.i, h⟩).Next.1 = (none, none) →
        it.Next = (MultiJobsIterator.Next
          { i := it.i + 1, its := it.its.set it.i (it.its.get ⟨it.i, h⟩).Next.2 }) ∧
        (it.its.set it.i (it.its.get ⟨it.i, h⟩).Next.2).length - (it.i + 1) <
          it.its.length - it.i) := by
  obtain ⟨h1, h2, _, _⟩ := MultiJobsIterator.NextLog_log it
  refine ⟨MultiJobsIterator.NextWithin_eq it, by omega, h1, ?_, ?_⟩
  · rw [h1]
    exact List.nodup_range' _ _
  · intro h he
    constructor
    · simp only [MultiJobsIterator.Next]
      rw [MultiJobsIterator.NextLog_skip it h he]
    · simp only [List.length_set]
      omega

/-- Witness of C19: over three exhausted children one `Next` calls each child
once and returns within four nested invocations. -/
theorem C19_multi_next_terminates_witness :
    MultiJobsIterator.NextWithin 4
        (NewMultiJobsIterator [scriptedIterator [], scriptedIterator [], scriptedIterator []]) =
      some (NewMultiJobsIterator
        [scriptedIterator [], scriptedIterator [], scriptedIterator []]).NextLog ∧
    (NewMultiJobsIterator
        [scriptedIterator [], scriptedIterator [], scriptedIterator []]).NextLog.2.length ≤ 3 :=
  have h := C19_multi_next_terminates
    (NewMultiJobsIterator [scriptedIterator [], scriptedIterator [], scriptedIterator []])
  ⟨h.1 4 (by decide), h.2.1⟩

/-! ## MultiJobsIterator over in-memory iterators -/

theorem list_set_get_self {α : Type} (l : List α) (i : Nat) (h : i < l.length) :
    l.set i (l.get ⟨i, h⟩) = l := by
  apply List.ext_getElem?
  intro k
  by_cases hk : i = k
  · subst hk
    rw [List.getElem?_eq_getElem h, List.getElem?_eq_getElem (by simpa using h)]
    exact congrArg some (List.getElem_set_self _)
  · rw [List.getElem?_set_ne hk]

theorem InMemoryJobIterator.toIterator_Next (s : InMemoryJobIterator) :
    s.toIterator.Next = (s.Next.1, s.Next.2.toIterator) := rfl

theorem MultiJobsIterator.ofStates_get (i : Nat) (states : List InMemoryJobIterator)
    (h : i < states.length)
    (h2 : (MultiJobsIterator.ofStates i states).i <
      (MultiJobsIterator.ofStates i states).its.length) :
    (MultiJobsIterator.ofStates i states).its.get ⟨(MultiJobsIterator.ofStates i states).i, h2⟩ =
      (states.get ⟨i, h⟩).toIterator := by
  simp [MultiJobsIterator.ofStates]

theorem remainingOutput_done (i : Nat) (states : List InMemoryJobIterator)
    (h : states.length ≤ i) : remainingOutput i states = [] := by
  simp [remainingOutput, List.drop_eq_nil_of_le h]

theorem remainingOutput_cons (i : Nat) (states : List InMemoryJobIterator)
    (h : i < states.length) :
    remainingOutput i states =
      (states.get ⟨i, h⟩).jctxs.drop (states.get ⟨i, h⟩).i ++ remainingOutput (i + 1) states := by
  unfold remainingOutput
  rw [List.drop_eq_getElem_cons h, List.map_cons, List.flatten_cons]
  rfl

theorem remainingOutput_set (i : Nat) (states : List InMemoryJobIterator)
    (h : i < states.length) (s2 : InMemoryJobIterator) :
    remainingOutput i (states.set i s2) =
      s2.jctxs.drop s2.i ++ remainingOutput (i + 1) states := by
  have h2 : i < (states.set i s2).length := by simpa using h
  rw [remainingOutput_cons i _ h2]
  have hg : (states.set i s2).get ⟨i, h2⟩ = s2 := List.getElem_set_self h2
  rw [hg]
  congr 1
  unfold remainingOutput
  rw [List.drop_set, if_pos (Nat.lt_succ_self i)]

theorem MultiJobsIterator.ofStates_step (n : Nat) :
    ∀ (i : Nat) (states : List InMemoryJobIterator), states.length - i = n → NonNil states →
      ∃ i2 states2,
        (MultiJobsIterator.ofStates i states).NextLog.1.2 =
          MultiJobsIterator.ofStates i2 states2 ∧
        NonNil states2 ∧
        (MultiJobsIterator.ofStates i states).NextLog.1.1 =
          ((remainingOutput i states).head?.join, none) ∧
        remainingOutput i2 states2 = (remainingOutput i states).tail := by
  induction n with
  | zero =>
    intro i states hn hnil
    have hle : states.length ≤ i := by omega
    refine ⟨i, states, ?_, hnil, ?_, ?_⟩
    · rw [MultiJobsIterator.NextLog_done _ (by simpa [MultiJobsIterator.ofStates] using hle)]
    · rw [MultiJobsIterator.NextLog_done _ (by simpa [MultiJobsIterator.ofStates] using hle),
        remainingOutput_done i states hle]
      rfl
    · rw [remainingOutput_done i states hle]
      rfl
  | succ k ih =>
    intro i states hn hnil
    have hlt : i < states.length := by omega
    have hlt2 : (MultiJobsIterator.ofStates i states).i <
        (MultiJobsIterator.ofStates i states).its.length := by
      simpa [MultiJobsIterator.ofStates] using hlt
    have hget := MultiJobsIterator.ofStates_get i states hlt hlt2
    by_cases hs : (states.get ⟨i, hlt⟩).i < (states.get ⟨i, hlt⟩).jctxs.length
    · have hnext := InMemoryJobIterator.Next_value _ hs
      have hne : (states.get ⟨i, hlt⟩).jctxs.get ⟨(states.get ⟨i, hlt⟩).i, hs⟩ ≠ none :=
        hnil _ (List.get_mem _ _ _) _ (List.get_mem _ _ _)
      obtain ⟨v, hv⟩ := Option.ne_none_iff_exists'.mp hne
      have he : ((MultiJobsIterator.ofStates i states).its.get
          ⟨(MultiJobsIterator.ofStates i states).i, hlt2⟩).Next.1 = (some v, none) := by
        rw [hget, InMemoryJobIterator.toIterator_Next, hnext, hv]
      have he2 : ((MultiJobsIterator.ofStates i states).its.get
          ⟨(MultiJobsIterator.ofStates i states).i, hlt2⟩).Next.2 =
          InMemoryJobIterator.toIterator
            { i := (states.get ⟨i, hlt⟩).i + 1, jctxs := (states.get ⟨i, hlt⟩).jctxs } := by
        rw [hget, InMemoryJobIterator.toIterator_Next, hnext]
      rw [MultiJobsIterator.NextLog_value _ hlt2 v he, he2]
      refine ⟨i, states.set i
        { i := (states.get ⟨i, hlt⟩).i + 1, jctxs := (states.get ⟨i, hlt⟩).jctxs }, ?_, ?_, ?_, ?_⟩
      · simp [MultiJobsIterator.ofStates, List.map_set]
      · intro s hs2 p hp
        rcases List.mem_or_eq_of_mem_set hs2 with h1 | h1
        · exact hnil s h1 p hp
        · subst h1
          exact hnil _ (List.get_mem _ _ _) p hp
      · rw [remainingOutput_cons i states hlt, List.drop_eq_getElem_cons hs]
        have hv2 : (states.get ⟨i, hlt⟩).jctxs[(states.get ⟨i, hlt⟩).i] = some v := hv
        rw [List.cons_append, List.head?_cons, hv2]
        rfl
      · rw [remainingOutput_set i states hlt, remainingOutput_cons i states hlt,
          List.drop_eq_getElem_cons hs]
        rfl
    · have hnext := InMemoryJobIterator.Next_exhausted _ (Nat.le_of_not_lt hs)
      have he : ((MultiJobsIterator.ofStates i states).its.get
          ⟨(MultiJobsIterator.ofStates i states).i, hlt2⟩).Next.1 = (none, none) := by
        rw [hget, InMemoryJobIterator.toIterator_Next, hnext]
      have he2 : ((MultiJobsIterator.ofStates i states).its.get
          ⟨(MultiJobsIterator.ofStates i states).i, hlt2⟩).Next.2 =
          (states.get ⟨i, hlt⟩).toIterator := by
        rw [hget, InMemoryJobIterator.toIterator_Next, hnext]
      have hstate : MultiJobsIterator.mk ((MultiJobsIterator.ofStates i states).i + 1)
          ((MultiJobsIterator.ofStates i states).its.set
            (MultiJobsIterator.ofStates i states).i (states.get ⟨i, hlt⟩).toIterator) =
          MultiJobsIterator.ofStates (i + 1) states := by
        simp only [MultiJobsIterator.ofStates, MultiJobsIterator.mk.injEq, true_and]
        rw [← List.map_set]
        congr 1
        exact list_set_get_self states i hlt
      rw [MultiJobsIterator.NextLog_skip _ hlt2 he, he2, hstate]
      obtain ⟨i2, states2, g1, g2, g3, g4⟩ := ih (i + 1) states (by omega) hnil
      refine ⟨i2, states2, g1, g2, ?_, ?_⟩
      · rw [g3, remainingOutput_cons i states hlt, List.drop_eq_nil_of_le (Nat.le_of_not_lt hs)]
        rfl
      · rw [g4, remainingOutput_cons i states hlt, List.drop_eq_nil_of_le (Nat.le_of_not_lt hs)]
        rfl

theorem MultiJobsIterator.ofStates_calls (i : Nat) (states : List InMemoryJobIterator)
    (hnil : NonNil states) (n : Nat) :
    (∃ i2 states2,
        (MultiJobsIterator.ofStates i states).afterCalls n =
          MultiJobsIterator.ofStates i2 states2 ∧
        NonNil states2 ∧ remainingOutput i2 states2 = (remainingOutput i states).drop n) ∧
      (MultiJobsIterator.ofStates i states).nthNext n =
        ((remainingOutput i states)[n]?.join, none) := by
  have key : ∃ i2 states2,
      (MultiJobsIterator.ofStates i states).afterCalls n =
        MultiJobsIterator.ofStates i2 states2 ∧
      NonNil states2 ∧ remainingOutput i2 states2 = (remainingOutput i states).drop n := by
    induction n with
    | zero => exact ⟨i, states, rfl, hnil, rfl⟩
    | succ k ih =>
      obtain ⟨i2, states2, g1, g2, g3⟩ := ih
      obtain ⟨i3, states3, k1, k2, _, k4⟩ :=
        MultiJobsIterator.ofStates_step _ i2 states2 rfl g2
      refine ⟨i3, states3, ?_, k2, ?_⟩
      · simp only [MultiJobsIterator.afterCalls, MultiJobsIterator.Next]
        rw [g1, k1]
      · rw [k4, g3, List.tail_drop]
  refine ⟨key, ?_⟩
  obtain ⟨i2, states2, g1, g2, g3⟩ := key
  obtain ⟨_, _, _, _, k3, _⟩ := MultiJobsIterator.ofStates_step _ i2 states2 rfl g2
  simp only [MultiJobsIterator.nthNext, MultiJobsIterator.Next]
  rw [g1, k3, g3, List.head?_drop]

theorem MultiJobsIterator.ofLists_eq (ls : List (List JobSchedulingContext)) :
    MultiJobsIterator.ofLists ls =
      MultiJobsIterator.ofStates 0 (ls.map (fun l => NewInMemoryJobIterator (l.map some))) := by
  simp [MultiJobsIterator.ofLists, MultiJobsIterator.ofStates, NewMultiJobsIterator,
    List.map_map, Function.comp]

theorem remainingOutput_lists (ls : List (List JobSchedulingContext)) :
    remainingOutput 0 (ls.map (fun l => NewInMemoryJobIterator (l.map some))) =
      ls.flatten.map some := by
  induction ls with
  | nil => rfl
  | cons l rest ih =>
    simp only [remainingOutput, List.drop_zero] at ih ⊢
    rw [List.map_cons, List.map_cons, List.flatten_cons, ih, List.flatten_cons, List.map_append]
    rfl

theorem NonNil_lists (ls : List (List JobSchedulingContext)) :
    NonNil (ls.map (fun l => NewInMemoryJobIterator (l.map some))) := by
  intro s hs p hp
  obtain ⟨l, _, hl⟩ := List.mem_map.mp hs
  subst hl
  obtain ⟨c, _, hc⟩ := List.mem_map.mp hp
  subst hc
  exact Option.some_ne_none c

/-- C11: a `MultiJobsIterator` constructed over the in-memory iterators of the
lists `l1, ..., lk` of (non-nil) contexts yields, over its successive `Next`
calls, the concatenation `l1 ++ ... ++ lk` in this order without error, and
exhausted on every call after it; a call that yields a value goes through the
children from the cursor up to the child that yields and leaves the cursor
on that child; and over the children `[c1, c2]`, `[]`, `[c3]` the calls
yield `c1`, `c2`, `c3`, then exhausted. -/
theorem C11_multi_concatenates (ls : List (List JobSchedulingContext)) (n : Nat) :
    (MultiJobsIterator.ofLists ls).nthNext n = (ls.flatten[n]?, none) ∧
      ((MultiJobsIterator.ofLists ls).nthNext n ≠ (none, none) →
        ((MultiJobsIterator.ofLists ls).afterCalls n).NextLog.2 =
          List.range' ((MultiJobsIterator.ofLists ls).afterCalls n).i
            (((MultiJobsIterator.ofLists ls).afterCalls (n + 1)).i + 1 -
              ((MultiJobsIterator.ofLists ls).afterCalls n).i)) ∧
      (∀ c1 c2 c3 : JobSchedulingContext,
        (MultiJobsIterator.ofLists [[c1, c2], [], [c3]]).nthNext 0 = (some c1, none) ∧
        (MultiJobsIterator.ofLists [[c1, c2], [], [c3]]).nthNext 1 = (some c2, none) ∧
        (MultiJobsIterator.ofLists [[c1, c2], [], [c3]]).nthNext 2 = (some c3, none) ∧
        (MultiJobsIterator.ofLists [[c1, c2], [], [c3]]).nthNext 3 = (none, none) ∧
        (MultiJobsIterator.ofLists [[c1, c2], [], [c3]]).nthNext 4 = (none, none)) := by
  have main : ∀ (ls : List (List JobSchedulingContext)) (n : Nat),
      (MultiJobsIterator.ofLists ls).nthNext n = (ls.flatten[n]?, none) := by
    intro ls n
    rw [MultiJobsIterator.ofLists_eq,
      (MultiJobsIterator.ofStates_calls 0 _ (NonNil_lists ls) n).2, remainingOutput_lists,
      List.getElem?_map]
    cases ls.flatten[n]? <;> rfl
  refine ⟨main ls n, ?_, ?_⟩
  · intro hne
    have hne2 : ((MultiJobsIterator.ofLists ls).afterCalls n).NextLog.1.1 ≠ (none, none) := hne
    obtain ⟨h1, _, _, h4⟩ :=
      MultiJobsIterator.NextLog_log ((MultiJobsIterator.ofLists ls).afterCalls n)
    have h5 := h4 hne2
    have h6 := MultiJobsIterator.NextLog_cursor ((MultiJobsIterator.ofLists ls).afterCalls n)
    have h7 : ((MultiJobsIterator.ofLists ls).afterCalls (n + 1)).i =
        ((MultiJobsIterator.ofLists ls).afterCalls n).NextLog.1.2.i := rfl
    rw [h7]
    have h8 : ((MultiJobsIterator.ofLists ls).afterCalls n).NextLog.1.2.i + 1 -
        ((MultiJobsIterator.ofLists ls).afterCalls n).i =
        ((MultiJobsIterator.ofLists ls).afterCalls n).NextLog.2.length := by omega
    rw [h8]
    exact h1
  · intro c1 c2 c3
    exact ⟨main _ 0, main _ 1, main _ 2, main _ 3, main _ 4⟩

/-- Witness of C11: the first call over the children `[x, y]`, `[]`, `[z]`
yields `x` and leaves the cursor on the first child. -/
theorem C11_multi_concatenates_witness :
    (MultiJobsIterator.ofLists [[mkJctx 0 "x" "q" none, mkJctx 1 "y" "q" none], [],
        [mkJctx 2 "z" "q" none]]).nthNext 0 ≠ (none, none) ∧
      ((MultiJobsIterator.ofLists [[mkJctx 0 "x" "q" none, mkJctx 1 "y" "q" none], [],
        [mkJctx 2 "z" "q" none]]).afterCalls 0).NextLog.2 =
        List.range' ((MultiJobsIterator.ofLists [[mkJctx 0 "x" "q" none, mkJctx 1 "y" "q" none],
          [], [mkJctx 2 "z" "q" none]]).afterCalls 0).i
          (((MultiJobsIterator.ofLists [[mkJctx 0 "x" "q" none, mkJctx 1 "y" "q" none], [],
            [mkJctx 2 "z" "q" none]]).afterCalls (0 + 1)).i + 1 -
            ((MultiJobsIterator.ofLists [[mkJctx 0 "x" "q" none, mkJctx 1 "y" "q" none], [],
              [mkJctx 2 "z" "q" none]]).afterCalls 0).i) :=
  have h := C11_multi_concatenates
    [[mkJctx 0 "x" "q" none, mkJctx 1 "y" "q" none], [], [mkJctx 2 "z" "q" none]] 0
  have hne : (MultiJobsIterator.ofLists [[mkJctx 0 "x" "q" none, mkJctx 1 "y" "q" none], [],
      [mkJctx 2 "z" "q" none]]).nthNext 0 ≠ (none, none) := by
    rw [h.1]
    decide
  ⟨hne, h.2.1 hne⟩

/-! ## QueuedJobsIterator -/

theorem find?_eq_head?_filter {α : Type} (p : α → Bool) (l : List α) :
    l.find? p = (l.filter p).head? := by
  induction l with
  | nil => rfl
  | cons a t ih =>
    cases h : p a
    · rw [List.find?_cons, h, List.filter_cons_of_neg (by simp [h])]
      exact ih
    · rw [List.find?_cons, h, List.filter_cons_of_pos h]
      rfl

theorem filter_drop_skipped (pool : String) (js : List Job) :
    (js.drop (skipped pool js + 1)).filter (eligible pool) =
      (js.filter (eligible pool)).tail := by
  induction js with
  | nil => rfl
  | cons a t ih =>
    cases h : eligible pool a
    · have h1 : skipped pool (a :: t) = skipped pool t + 1 := by
        simp [skipped, List.takeWhile_cons, h]
      rw [h1, List.drop_succ_cons, ih, List.filter_cons_of_neg (by simp [h])]
    · have h1 : skipped pool (a :: t) = 0 := by
        simp [skipped, List.takeWhile_cons, h]
      rw [h1, List.filter_cons_of_pos h]
      rfl

theorem QueuedJobsIterator.Next_overList (js : List Job) (pool : String) (m : Nat) :
    ∀ (pos looks fuel : Nat), js.length - pos = m → m < fuel →
      QueuedJobsIterator.Next fuel (QueuedJobsIterator.overList js pool pos looks) =
        some ((((js.drop pos).find? (eligible pool)).map JobSchedulingContextFromJob, none),
          QueuedJobsIterator.overList js pool (pos + skipped pool (js.drop pos) + 1)
            (looks + skipped pool (js.drop pos) + 1)) := by
  induction m with
  | zero =>
    intro pos looks fuel hm hf
    obtain ⟨f, rfl⟩ : ∃ f, fuel = f + 1 := ⟨fuel - 1, by omega⟩
    have hle : js.length ≤ pos := by omega
    have hnone : js[pos]? = none := List.getElem?_eq_none hle
    simp only [QueuedJobsIterator.Next, QueuedJobsIterator.overList, JobIterator.Next, hnone,
      List.drop_eq_nil_of_le hle]
    rfl
  | succ k ih =>
    intro pos looks fuel hm hf
    obtain ⟨f, rfl⟩ : ∃ f, fuel = f + 1 := ⟨fuel - 1, by omega⟩
    have hlt : pos < js.length := by omega
    have hsome : js[pos]? = some js[pos] := List.getElem?_eq_getElem hlt
    have hrec := ih (pos + 1) (looks + 1) f (by omega) (by omega)
    rw [List.drop_eq_getElem_cons hlt]
    cases hel : eligible pool js[pos]
    · have hnot : ¬ pool ∈ js[pos].Pools := by simpa [eligible] using hel
      have hsk : skipped pool (js[pos] :: js.drop (pos + 1)) =
          skipped pool (js.drop (pos + 1)) + 1 := by
        unfold skipped
        rw [List.takeWhile_cons_of_pos (by simp [hel])]
        rfl
      simp only [QueuedJobsIterator.Next, QueuedJobsIterator.overList, JobIterator.Next, hsome,
        if_neg hnot]
      simp only [QueuedJobsIterator.overList] at hrec
      rw [hrec, List.find?_cons, hel, hsk]
      have e1 : pos + 1 + skipped pool (js.drop (pos + 1)) + 1 =
          pos + (skipped pool (js.drop (pos + 1)) + 1) + 1 := by omega
      have e2 : looks + 1 + skipped pool (js.drop (pos + 1)) + 1 =
          looks + (skipped pool (js.drop (pos + 1)) + 1) + 1 := by omega
      rw [e1, e2]
    · have hin : pool ∈ js[pos].Pools := by simpa [eligible] using hel
      have hsk : skipped pool (js[pos] :: js.drop (pos + 1)) = 0 := by
        unfold skipped
        rw [List.takeWhile_cons_of_neg (by simp [hel])]
        rfl
      simp only [QueuedJobsIterator.Next, QueuedJobsIterator.overList, JobIterator.Next, hsome,
        if_pos hin]
      rw [List.find?_cons, hel, hsk]
      rfl

theorem QueuedJobsIterator.calls_overList (js : List Job) (pool : String) (fuel : Nat)
    (hfuel : js.length < fuel) (n : Nat) :
    ∃ pos looks,
      QueuedJobsIterator.afterCalls fuel (QueuedJobsIterator.overList js pool 0 0) n =
        some (QueuedJobsIterator.overList js pool pos looks) ∧
      (js.drop pos).filter (eligible pool) = (js.filter (eligible pool)).drop n := by
  induction n with
  | zero => exact ⟨0, 0, rfl, rfl⟩
  | succ k ih =>
    obtain ⟨pos, looks, h1, h2⟩ := ih
    refine ⟨pos + skipped pool (js.drop pos) + 1, looks + skipped pool (js.drop pos) + 1, ?_, ?_⟩
    · simp only [QueuedJobsIterator.afterCalls]
      rw [h1, Option.some_bind,
        QueuedJobsIterator.Next_overList js pool _ pos looks fuel rfl (by omega)]
      rfl
    · have := filter_drop_skipped pool (js.drop pos)
      rw [List.drop_drop] at this
      rw [Nat.add_assoc, this, h2, List.tail_drop]

/-- C13: over a job source that produces the non-nil jobs `js` and then
exhaustion, with the cancellation signal never active and enough passes
allowed, the successive `Next` calls of a `QueuedJobsIterator` for pool `p`
return contexts wrapping the jobs of `js` whose pools contain `p`, each once
and in the order of `js`, without error, and then exhausted; and a call pulls
from the source the ineligible jobs that it skips and then the one pull whose
result it returns. Over `[J1(pools = [A]), J2(pools = [B])]` with pool `A`
the calls return `J1`, then exhausted. -/
theorem C13_queued_filters_by_pool (p queue : String) (js : List Job) (fuel : Nat)
    (hfuel : js.length < fuel) (n : Nat) :
    QueuedJobsIterator.nthNext fuel
        (NewQueuedJobsIterator Context.background queue p (fun _ => JobIterator.ofList js)) n =
        some (((js.filter (fun j => decide (p ∈ j.Pools)))[n]?).map JobSchedulingContextFromJob,
          none) ∧
      (∀ j : Job, (JobSchedulingContextFromJob j).Job = j) ∧
      (∃ pos looks,
        QueuedJobsIterator.afterCalls fuel
          (NewQueuedJobsIterator Context.background queue p (fun _ => JobIterator.ofList js)) n =
          some (QueuedJobsIterator.overList js p pos looks) ∧
        QueuedJobsIterator.afterCalls fuel
          (NewQueuedJobsIterator Context.background queue p (fun _ => JobIterator.ofList js))
          (n + 1) =
          some (QueuedJobsIterator.overList js p
            (pos + ((js.drop pos).takeWhile (fun j => !decide (p ∈ j.Pools))).length + 1)
            (looks + ((js.drop pos).takeWhile (fun j => !decide (p ∈ j.Pools))).length + 1))) ∧
      QueuedJobsIterator.nthNext 3
        (NewQueuedJobsIterator Context.background "q" "A"
          (fun _ => JobIterator.ofList [mkJob "J1" ["A"], mkJob "J2" ["B"]])) 0 =
        some (some (JobSchedulingContextFromJob (mkJob "J1" ["A"])), none) ∧
      QueuedJobsIterator.nthNext 3
        (NewQueuedJobsIterator Context.background "q" "A"
          (fun _ => JobIterator.ofList [mkJob "J1" ["A"], mkJob "J2" ["B"]])) 1 =
        some (none, none) := by
  have hnew : NewQueuedJobsIterator Context.background queue p
      (fun _ => JobIterator.ofList js) = QueuedJobsIterator.overList js p 0 0 := rfl
  obtain ⟨pos, looks, h1, h2⟩ := QueuedJobsIterator.calls_overList js p fuel hfuel n
  have hnext := QueuedJobsIterator.Next_overList js p _ pos looks fuel rfl (by omega)
  refine ⟨?_, fun _ => rfl, ⟨pos, looks, ?_, ?_⟩, by decide, by decide⟩
  · rw [hnew]
    simp only [QueuedJobsIterator.nthNext]
    rw [h1, Option.some_bind, hnext, find?_eq_head?_filter, h2, List.head?_drop]
    rfl
  · rw [hnew]
    exact h1
  · rw [hnew]
    simp only [QueuedJobsIterator.afterCalls]
    rw [h1, Option.some_bind, hnext]
    rfl

/-- Witness of C13: three jobs, the second not eligible for pool `A`; the
second call skips it and returns the third. -/
theorem C13_queued_filters_by_pool_witness :
    [mkJob "J1" ["A"], mkJob "J2" ["B"], mkJob "J3" ["B", "A"]].length < 4 ∧
    QueuedJobsIterator.nthNext 4
      (NewQueuedJobsIterator Context.background "q" "A"
        (fun _ => JobIterator.ofList
          [mkJob "J1" ["A"], mkJob "J2" ["B"], mkJob "J3" ["B", "A"]])) 1 =
      some (some (JobSchedulingContextFromJob (mkJob "J3" ["B", "A"])), none) :=
  ⟨by decide,
    (C13_queued_filters_by_pool "A" "q"
      [mkJob "J1" ["A"], mkJob "J2" ["B"], mkJob "J3" ["B", "A"]] 4 (by decide) 1).1.trans
      (by decide)⟩

/-- C14: when the cancellation signal is active at the time `Next` is called,
`Next` returns no value and the error of the context, within its first pass
through the loop, and leaves the job source where it was, whatever jobs the
source still has to give. -/
theorem C14_queued_cancelled (it : QueuedJobsIterator) (fuel : Nat) (e : GoError)
    (h : it.ctx.signal it.ctx.looks = some e) :
    QueuedJobsIterator.Next (fuel + 1) it =
      some ((none, some e),
        { jobIter := it.jobIter, pool := it.pool,
          ctx := { signal := it.ctx.signal, looks := it.ctx.looks + 1 } }) := by
  simp only [QueuedJobsIterator.Next, h]

/-- Witness of C14: the source has an eligible job to give and the signal is
active; `Next` returns the cancellation error and the source has not moved. -/
theorem C14_queued_cancelled_witness :
    (QueuedJobsIterator.Next 1
      { jobIter := JobIterator.ofList [mkJob "J1" ["A"]], pool := "A",
        ctx := { signal := fun _ => some ⟨"context canceled"⟩, looks := 0 } }).map
      (fun r => (r.1, r.2.jobIter.pos)) =
      some ((none, some ⟨"context canceled"⟩), 0) :=
  congrArg (Option.map (fun r => (r.1, r.2.jobIter.pos)))
    (C14_queued_cancelled
      { jobIter := JobIterator.ofList [mkJob "J1" ["A"]], pool := "A",
        ctx := { signal := fun _ => some ⟨"context canceled"⟩, looks := 0 } }
      0 ⟨"context canceled"⟩ rfl)

theorem QueuedJobsIterator.Next_withoutErrors (fuel : Nat) :
    ∀ it : QueuedJobsIterator,
      (QueuedJobsIterator.Next fuel
        { jobIter := it.jobIter.withoutErrors, pool := it.pool, ctx := it.ctx }).map
          (fun r => r.1) =
        (QueuedJobsIterator.Next fuel it).map (fun r => r.1) := by
  induction fuel with
  | zero => intro it; rfl
  | succ f ih =>
    intro it
    simp only [QueuedJobsIterator.Next, JobIterator.Next, JobIterator.withoutErrors]
    cases hs : it.ctx.signal it.ctx.looks with
    | some e => rfl
    | none =>
      simp only []
      cases hj : (it.jobIter.results it.jobIter.pos).1 with
      | none => rfl
      | some job =>
        simp only []
        by_cases hp : it.pool ∈ job.Pools
        · simp only [if_pos hp]
          rfl
        · simp only [if_neg hp]
          exact ih
            { jobIter := { results := it.jobIter.results, pos := it.jobIter.pos + 1 }
              pool := it.pool
              ctx := { signal := it.ctx.signal, looks := it.ctx.looks + 1 } }

theorem QueuedJobsIterator.Next_error_source (fuel : Nat) :
    ∀ (it : QueuedJobsIterator) (r : (JctxPtr × Option GoError) × QueuedJobsIterator)
      (e : GoError), QueuedJobsIterator.Next fuel it = some r → r.1.2 = some e →
      r.1.1 = none ∧ ∃ k, it.ctx.looks ≤ k ∧ it.ctx.signal k = some e := by
  induction fuel with
  | zero => intro it r e h; cases h
  | succ f ih =>
    intro it r e h he
    simp only [QueuedJobsIterator.Next, JobIterator.Next] at h
    cases hs : it.ctx.signal it.ctx.looks with
    | some e2 =>
      simp only [hs, Option.some.injEq] at h
      subst h
      have : e2 = e := by simpa using he
      subst this
      exact ⟨rfl, it.ctx.looks, Nat.le_refl _, hs⟩
    | none =>
      simp only [hs] at h
      cases hj : (it.jobIter.results it.jobIter.pos).1 with
      | none =>
        simp only [hj, Option.some.injEq] at h
        subst h
        cases he
      | some job =>
        simp only [hj] at h
        by_cases hp : it.pool ∈ job.Pools
        · simp only [if_pos hp, Option.some.injEq] at h
          subst h
          cases he
        · simp only [if_neg hp] at h
          obtain ⟨h1, k, hk1, hk2⟩ := ih _ r e h he
          exact ⟨h1, k, Nat.le_of_succ_le hk1, hk2⟩

/-- C15, counterexample: with the cancellation signal inactive and a job source
whose pull fails with an error and returns no job, `Next` returns exhausted
`(nil, nil)` and not that error. -/
theorem C15_counterexample :
    Context.background.signal Context.background.looks = none ∧
    (failingSource ⟨"store unavailable"⟩).Next.1.2 = some ⟨"store unavailable"⟩ ∧
    (QueuedJobsIterator.Next 1
      { jobIter := failingSource ⟨"store unavailable"⟩, pool := "A",
        ctx := Context.background }).map (fun r => r.1) = some (none, none) ∧
    ¬ ((QueuedJobsIterator.Next 1
      { jobIter := failingSource ⟨"store unavailable"⟩, pool := "A",
        ctx := Context.background }).map (fun r => r.1) =
        some (none, some ⟨"store unavailable"⟩)) := by
  decide

/-- C15, amended: `QueuedJobsIterator.Next` discards the error of the pull from
the job source. With the cancellation signal inactive, a pull that returns no
job makes `Next` return exhausted `(nil, nil)` whether or not the pull failed
with an error; what `Next` returns does not depend on the errors of the
source; and an error that `Next` returns comes with no value and is the error
of the context at a look that found the cancellation signal active. -/
theorem C15_source_errors_discarded (it : QueuedJobsIterator) (fuel : Nat) :
    (it.ctx.signal it.ctx.looks = none → it.jobIter.Next.1.1 = none →
        QueuedJobsIterator.Next (fuel + 1) it =
          some ((none, none),
            { jobIter := it.jobIter.Next.2, pool := it.pool,
              ctx := { signal := it.ctx.signal, looks := it.ctx.looks + 1 } })) ∧
      (QueuedJobsIterator.Next fuel
        { jobIter := it.jobIter.withoutErrors, pool := it.pool, ctx := it.ctx }).map
          (fun r => r.1) =
        (QueuedJobsIterator.Next fuel it).map (fun r => r.1) ∧
      (∀ (r : (JctxPtr × Option GoError) × QueuedJobsIterator) (e : GoError),
        QueuedJobsIterator.Next fuel it = some r → r.1.2 = some e →
        r.1.1 = none ∧ ∃ k, it.ctx.looks ≤ k ∧ it.ctx.signal k = some e) := by
  refine ⟨?_, QueuedJobsIterator.Next_withoutErrors fuel it,
    QueuedJobsIterator.Next_error_source fuel it⟩
  intro hs hj
  simp only [JobIterator.Next] at hj
  simp only [QueuedJobsIterator.Next, JobIterator.Next, hs, hj]

/-- Witness of C15: the pull fails with an error and returns no job; `Next`
returns exhausted. -/
theorem C15_source_errors_discarded_witness :
    QueuedJobsIterator.Next (0 + 1)
      { jobIter := failingSource ⟨"store unavailable"⟩, pool := "A",
        ctx := Context.background } =
      some ((none, none),
        { jobIter := (failingSource ⟨"store unavailable"⟩).Next.2, pool := "A",
          ctx := { signal := Context.background.signal,
                   looks := Context.background.looks + 1 } }) :=
  (C15_source_errors_discarded
    { jobIter := failingSource ⟨"store unavailable"⟩, pool := "A",
      ctx := Context.background } 0).1 rfl rfl

/-- C16, counterexample: over an exhausted job source the first `Next` returns
exhausted; the cancellation signal then becomes active and the second `Next`
returns the error of the context, not exhausted. And over a job source that
returns no job and then an eligible job, with the signal never active, the
first `Next` returns exhausted and the second returns a value. -/
theorem C16_counterexample :
    QueuedJobsIterator.nthNext 1
      { jobIter := JobIterator.ofList [], pool := "A",
        ctx := cancelledAfterFirstLook ⟨"context canceled"⟩ } 0 = some (none, none) ∧
    QueuedJobsIterator.nthNext 1
      { jobIter := JobIterator.ofList [], pool := "A",
        ctx := cancelledAfterFirstLook ⟨"context canceled"⟩ } 1 =
      some (none, some ⟨"context canceled"⟩) ∧
    QueuedJobsIterator.nthNext 1
      { jobIter := revivingSource (mkJob "J1" ["A"]), pool := "A",
        ctx := Context.background } 0 = some (none, none) ∧
    QueuedJobsIterator.nthNext 1
      { jobIter := revivingSource (mkJob "J1" ["A"]), pool := "A",
        ctx := Context.background } 1 =
      some (some (JobSchedulingContextFromJob (mkJob "J1" ["A"])), none) := by
  decide

theorem QueuedJobsIterator.Next_exhausted_pull (fuel : Nat) :
    ∀ (it : QueuedJobsIterator) (r : (JctxPtr × Option GoError) × QueuedJobsIterator),
      QueuedJobsIterator.Next fuel it = some r → r.1 = (none, none) →
      r.2.jobIter.results = it.jobIter.results ∧ r.2.ctx.signal = it.ctx.signal ∧
        r.2.pool = it.pool ∧
        ∃ k, k < r.2.jobIter.pos ∧ (it.jobIter.results k).1 = none := by
  induction fuel with
  | zero => intro it r h; cases h
  | succ f ih =>
    intro it r h hr
    simp only [QueuedJobsIterator.Next, JobIterator.Next] at h
    cases hs : it.ctx.signal it.ctx.looks with
    | some e2 =>
      simp only [hs, Option.some.injEq] at h
      subst h
      cases hr
    | none =>
      simp only [hs] at h
      cases hj : (it.jobIter.results it.jobIter.pos).1 with
      | none =>
        simp only [hj, Option.some.injEq] at h
        subst h
        exact ⟨rfl, rfl, rfl, it.jobIter.pos, Nat.lt_succ_self _, hj⟩
      | some job =>
        simp only [hj] at h
        by_cases hp : it.pool ∈ job.Pools
        · simp only [if_pos hp, Option.some.injEq] at h
          subst h
          cases hr
        · simp only [if_neg hp] at h
          exact ih
            { jobIter := { results := it.jobIter.results, pos := it.jobIter.pos + 1 }
              pool := it.pool
              ctx := { signal := it.ctx.signal, looks := it.ctx.looks + 1 } } r h hr

theorem QueuedJobsIterator.afterCalls_exhausted (s : QueuedJobsIterator)
    (hs : ∀ m, s.jobIter.pos ≤ m → (s.jobIter.results m).1 = none) (fuel n : Nat) :
    ∃ s2, QueuedJobsIterator.afterCalls (fuel + 1) s n = some s2 ∧
      s2.jobIter.results = s.jobIter.results ∧ s2.ctx.signal = s.ctx.signal ∧
      s2.ctx.looks = s.ctx.looks + n ∧ s.jobIter.pos ≤ s2.jobIter.pos ∧
      QueuedJobsIterator.nthNext (fuel + 1) s n =
        some (none, s.ctx.signal (s.ctx.looks + n)) := by
  have step : ∀ t : QueuedJobsIterator,
      (∀ m, t.jobIter.pos ≤ m → (t.jobIter.results m).1 = none) →
      ∃ t2, QueuedJobsIterator.Next (fuel + 1) t = some ((none, t.ctx.signal t.ctx.looks), t2) ∧
        t2.jobIter.results = t.jobIter.results ∧ t2.ctx.signal = t.ctx.signal ∧
        t2.ctx.looks = t.ctx.looks + 1 ∧ t.jobIter.pos ≤ t2.jobIter.pos := by
    intro t ht
    simp only [QueuedJobsIterator.Next, JobIterator.Next]
    cases hsig : t.ctx.signal t.ctx.looks with
    | some e => exact ⟨_, rfl, rfl, rfl, rfl, Nat.le_refl _⟩
    | none =>
      simp only [ht t.jobIter.pos (Nat.le_refl _)]
      exact ⟨_, rfl, rfl, rfl, rfl, Nat.le_succ _⟩
  have key : ∃ s2, QueuedJobsIterator.afterCalls (fuel + 1) s n = some s2 ∧
      s2.jobIter.results = s.jobIter.results ∧ s2.ctx.signal = s.ctx.signal ∧
      s2.ctx.looks = s.ctx.looks + n ∧ s.jobIter.pos ≤ s2.jobIter.pos := by
    induction n with
    | zero => exact ⟨s, rfl, rfl, rfl, rfl, Nat.le_refl _⟩
    | succ k ih =>
      obtain ⟨s2, g1, g2, g3, g4, g5⟩ := ih
      obtain ⟨t2, k1, k2, k3, k4, k5⟩ := step s2 (by
        intro m hm
        rw [g2]
        exact hs m (by omega))
      refine ⟨t2, ?_, k2.trans g2, k3.trans g3, by omega, by omega⟩
      simp only [QueuedJobsIterator.afterCalls]
      rw [g1, Option.some_bind, k1]
      rfl
  obtain ⟨s2, g1, g2, g3, g4, g5⟩ := key
  refine ⟨s2, g1, g2, g3, g4, g5, ?_⟩
  obtain ⟨t2, k1, _⟩ := step s2 (by
    intro m hm
    rw [g2]
    exact hs m (by omega))
  simp only [QueuedJobsIterator.nthNext]
  rw [g1, Option.some_bind, k1, g3, g4]
  rfl

/-- C16, amended: over a job source whose exhaustion is final (once a pull has
returned no job, every later pull returns no job), once a call to `Next` has
returned exhausted `(nil, nil)`, every later call returns no value: it returns
exhausted when the cancellation signal is inactive at that call, and the error
of the context when the signal is active. -/
theorem C16_queued_exhausted_stays (it : QueuedJobsIterator) (fuel : Nat)
    (r : (JctxPtr × Option GoError) × QueuedJobsIterator)
    (hr : QueuedJobsIterator.Next fuel it = some r) (hex : r.1 = (none, none))
    (hst : it.jobIter.StaysExhausted) (fuel2 n : Nat) :
    QueuedJobsIterator.nthNext (fuel2 + 1) r.2 n =
      some (none, r.2.ctx.signal (r.2.ctx.looks + n)) := by
  obtain ⟨h1, _, _, k, hk1, hk2⟩ := QueuedJobsIterator.Next_exhausted_pull fuel it r hr hex
  have hs : ∀ m, r.2.jobIter.pos ≤ m → (r.2.jobIter.results m).1 = none := by
    intro m hm
    rw [h1]
    exact hst k hk2 m (by omega)
  obtain ⟨_, _, _, _, _, _, h⟩ := QueuedJobsIterator.afterCalls_exhausted r.2 hs fuel2 n
  exact h

/-- Witness of C16: over the source of one ineligible job the first `Next`
returns exhausted, and so does a later call while the signal is inactive. -/
theorem C16_queued_exhausted_stays_witness :
    QueuedJobsIterator.nthNext (0 + 1)
      (QueuedJobsIterator.overList [mkJob "J2" ["B"]] "A" 2 2) 3 = some (none, none) :=
  C16_queued_exhausted_stays
    (QueuedJobsIterator.overList [mkJob "J2" ["B"]] "A" 0 0) 2
    ((none, none), QueuedJobsIterator.overList [mkJob "J2" ["B"]] "A" 2 2)
    rfl rfl
    (by
      intro k hk m hm
      have hk1 : 1 ≤ k := by
        by_contra hlt
        have hk0 : k = 0 := by omega
        subst hk0
        simp [QueuedJobsIterator.overList] at hk
      have : [mkJob "J2" ["B"]].length ≤ m := by simpa using (by omega : 1 ≤ m)
      simp [QueuedJobsIterator.overList, List.getElem?_eq_none this])
    0 3

/-! ## The lock discipline -/

theorem Guarded_map_access (rest : List Access) :
    ∀ l : List Access, (∀ a ∈ l, a ≠ Access.Lock ∧ a ≠ Access.Unlock) →
      Guarded true (l ++ rest) = Guarded true rest := by
  intro l
  induction l with
  | nil => intro _; rfl
  | cons a t ih =>
    intro h
    have ha := h a (List.mem_cons_self _ _)
    have ht := ih (fun x hx => h x (List.mem_cons_of_mem _ hx))
    cases a with
    | Lock => exact absurd rfl ha.1
    | Unlock => exact absurd rfl ha.2
    | ReadByQueue => simpa [Guarded] using ht
    | WriteByQueue => simpa [Guarded] using ht
    | ReadById => simpa [Guarded] using ht
    | WriteById => simpa [Guarded] using ht

theorem Guarded_locked (l : List Access)
    (hl : ∀ a ∈ l, a ≠ Access.Lock ∧ a ≠ Access.Unlock) :
    Guarded false ([Access.Lock] ++ l ++ [Access.Unlock]) = true := by
  have h1 : [Access.Lock] ++ l ++ [Access.Unlock] = Access.Lock :: (l ++ [Access.Unlock]) := rfl
  rw [h1]
  show (!false && Guarded true (l ++ [Access.Unlock])) = true
  rw [Guarded_map_access _ l hl]
  rfl

/-- C18, on the code: `EnqueueMany`, `GetExistingJobsByIds` and `GetJobIterator`
touch the maps only between `Lock` and `Unlock`, and `GetQueueJobIds` reads
`jctxsByQueue` without the mutex. Called between the two loops of
`EnqueueMany([xx, x])` on a fresh repository, it returns the appended and not
yet sorted ids `[xx, x]`, which is neither what the repository held before the
batch nor what it holds after it. -/
theorem C18_get_queue_job_ids_unguarded :
    Guarded false GetQueueJobIds_accesses = false ∧
      (∀ (E : Externals) (repo : InMemoryJobRepository) (jctxs : List JobSchedulingContext),
        Guarded false (EnqueueMany_accesses E repo jctxs) = true) ∧
      (∀ jobIds : List String, Guarded false (GetExistingJobsByIds_accesses jobIds) = true) ∧
      Guarded false GetJobIterator_accesses = true ∧
      (GetQueueJobIds (NewInMemoryJobRepository "A") "q").1 = [] ∧
      (GetQueueJobIds (betweenLoops exampleExternals (NewInMemoryJobRepository "A")
        [mkJctx 0 "xx" "q" none, mkJctx 1 "x" "q" none]) "q").1 = ["xx", "x"] ∧
      (GetQueueJobIds (EnqueueMany exampleExternals (NewInMemoryJobRepository "A")
        [mkJctx 0 "xx" "q" none, mkJctx 1 "x" "q" none]) "q").1 = ["x", "xx"] := by
  refine ⟨rfl, ?_, ?_, rfl, by decide, by decide, by decide⟩
  · intro E repo jctxs
    have h1 : EnqueueMany_accesses E repo jctxs =
        [Access.Lock] ++
          ((jctxs.map
            (fun _ => [Access.ReadByQueue, Access.WriteByQueue, Access.WriteById])).flatten ++
          ((jctxs.foldl (enqueueOne E) (repo, [])).2.map
            (fun _ => [Access.ReadByQueue, Access.WriteByQueue])).flatten) ++
          [Access.Unlock] := by
      simp only [EnqueueMany_accesses, List.append_assoc]
    rw [h1]
    apply Guarded_locked
    intro a ha
    rcases List.mem_append.mp ha with ha | ha
    · obtain ⟨l, hl, hal⟩ := List.mem_flatten.mp ha
      obtain ⟨_, _, rfl⟩ := List.mem_map.mp hl
      simp only [List.mem_cons, List.mem_singleton, List.not_mem_nil, or_false] at hal
      rcases hal with rfl | rfl | rfl <;> exact ⟨by decide, by decide⟩
    · obtain ⟨l, hl, hal⟩ := List.mem_flatten.mp ha
      obtain ⟨_, _, rfl⟩ := List.mem_map.mp hl
      simp only [List.mem_cons, List.mem_singleton, List.not_mem_nil, or_false] at hal
      rcases hal with rfl | rfl <;> exact ⟨by decide, by decide⟩
  · intro jobIds
    apply Guarded_locked
    intro a ha
    obtain ⟨_, _, rfl⟩ := List.mem_map.mp ha
    exact ⟨by decide, by decide⟩

/-! ## Splitting a batch -/

theorem map_const_append {α β : Type} (f : α → β) (c : β) (rest : List β) :
    ∀ pre : List α, (∀ x ∈ pre, f x = c) →
      pre.map f ++ c :: rest = c :: (pre.map f ++ rest) := by
  intro pre
  induction pre with
  | nil => intro _; rfl
  | cons a t ih =>
    intro h
    rw [List.map_cons, List.cons_append, ih (fun x hx => h x (List.mem_cons_of_mem _ hx)),
      h a (List.mem_cons_self _ _)]
    rfl

/-- Two sorted rearrangements of the same elements have the same images under
a function that takes elements which compare both ways to the same value. -/
theorem map_eq_of_perm_of_sorted {α β : Type} (r : α → α → Prop) (f : α → β)
    (hrefl : ∀ a, r a a) (hanti : ∀ a b, r a b → r b a → f a = f b) :
    ∀ l1 l2 : List α, l1.Perm l2 → l1.Pairwise r → l2.Pairwise r →
      l1.map f = l2.map f := by
  intro l1
  induction l1 with
  | nil =>
    intro l2 hp _ _
    rw [hp.symm.eq_nil]
  | cons a t ih =>
    intro l2 hp h1 h2
    have ha : a ∈ l2 := hp.subset (List.mem_cons_self _ _)
    obtain ⟨pre, post, rfl⟩ := List.append_of_mem ha
    have hp2 : t.Perm (pre ++ post) :=
      (List.perm_cons a).mp (hp.trans List.perm_middle)
    have hs2 : (pre ++ post).Pairwise r :=
      h2.sublist (List.Sublist.append (List.Sublist.refl pre) (List.sublist_cons_self a post))
    rw [List.pairwise_cons] at h1
    have hpre : ∀ x ∈ pre, f x = f a := by
      intro x hx
      have hxa : r x a :=
        (List.pairwise_append.mp h2).2.2 x hx a (List.mem_cons_self _ _)
      have hxl : x ∈ a :: t := hp.symm.subset (List.mem_append_left _ hx)
      have hax : r a x := by
        rcases List.mem_cons.mp hxl with e | e
        · rw [e]; exact hrefl a
        · exact h1.1 x e
      exact hanti x a hxa hax
    rw [List.map_cons, ih (pre ++ post) hp2 h1.2 hs2, List.map_append, List.map_append,
      List.map_cons, map_const_append f (f a) _ pre hpre]

theorem lastWithId_append (a b : List JobSchedulingContext) (x : String) :
    lastWithId (a ++ b) x = (lastWithId b x).or (lastWithId a x) := by
  simp only [lastWithId, List.reverse_append, List.find?_append]

/-- C20: splitting a batch does not matter. When the job comparator is a total
preorder in which two jobs compare equal only when they have the same id (and
the library sort keeps its contract), then from every repository
`EnqueueMany(a)` followed by `EnqueueMany(b)` and the single call
`EnqueueMany(a ++ b)` lead to repositories with the same `GetQueueJobIds` for
every queue and the same `GetExistingJobsByIds` for every list of ids. -/
theorem C20_batch_split (E : Externals) (hperm : SortFuncPermutes E) (hsorts : SortFuncSorts E)
    (hcmp : IsTotalPreorder E.SchedulingOrderCompare)
    (hid : ∀ j1 j2 : Job, E.SchedulingOrderCompare j1 j2 = 0 → j1.Id = j2.Id)
    (repo : InMemoryJobRepository) (a b : List JobSchedulingContext) (Q : String)
    (ids : List String) :
    (GetQueueJobIds (EnqueueMany E (EnqueueMany E repo a) b) Q).1 =
        (GetQueueJobIds (EnqueueMany E repo (a ++ b)) Q).1 ∧
      (GetExistingJobsByIds (EnqueueMany E (EnqueueMany E repo a) b) ids).1 =
        (GetExistingJobsByIds (EnqueueMany E repo (a ++ b)) ids).1 := by
  constructor
  · simp only [GetQueueJobIds, armadaslices_Map]
    have hpool := EnqueueMany_currentPool E repo a
    by_cases hb : ∃ c ∈ b, targetQueue E repo.currentPool c = Q
    · have hab : ∃ c ∈ a ++ b, targetQueue E repo.currentPool c = Q := by
        obtain ⟨c, hc, e⟩ := hb
        exact ⟨c, List.mem_append_right _ hc, e⟩
      have hb2 : ∃ c ∈ b, targetQueue E (EnqueueMany E repo a).currentPool c = Q := by
        rw [hpool]; exact hb
      have hpre := jctxCompare_preorder E hcmp
      apply map_eq_of_perm_of_sorted (fun x y => jctxCompare E x y ≤ 0) (fun c => c.Job.Id)
      · intro x
        rcases hpre.2.1 x x with h | h <;> exact h
      · intro x y hxy hyx
        have h0 : E.SchedulingOrderCompare x.Job y.Job = 0 := by
          have := (hcmp.1 y.Job x.Job).mp hyx
          have hxy2 : E.SchedulingOrderCompare x.Job y.Job ≤ 0 := hxy
          omega
        exact hid x.Job y.Job h0
      · refine (EnqueueMany_perm E hperm _ b Q).trans ?_
        rw [hpool]
        refine ((EnqueueMany_perm E hperm repo a Q).append_right _).trans ?_
        refine List.Perm.trans ?_ (EnqueueMany_perm E hperm repo (a ++ b) Q).symm
        rw [List.filter_append, List.append_assoc]
      · rw [EnqueueMany_touched E _ b Q hb2]
        exact hsorts _ hpre _
      · rw [EnqueueMany_touched E repo (a ++ b) Q hab]
        exact hsorts _ hpre _
    · have hb3 : ∀ c ∈ b, targetQueue E repo.currentPool c ≠ Q := fun c hc e => hb ⟨c, hc, e⟩
      have hb2 : ∀ c ∈ b, targetQueue E (EnqueueMany E repo a).currentPool c ≠ Q := by
        rw [hpool]; exact hb3
      have hfb : b.filter (fun c => decide (targetQueue E repo.currentPool c = Q)) = [] := by
        rw [List.filter_eq_nil_iff]
        intro c hc
        simpa using hb3 c hc
      rw [EnqueueMany_untouched E _ b Q hb2]
      by_cases ha : ∃ c ∈ a, targetQueue E repo.currentPool c = Q
      · have hab : ∃ c ∈ a ++ b, targetQueue E repo.currentPool c = Q := by
          obtain ⟨c, hc, e⟩ := ha
          exact ⟨c, List.mem_append_left _ hc, e⟩
        rw [EnqueueMany_touched E repo a Q ha, EnqueueMany_touched E repo (a ++ b) Q hab,
          List.filter_append, hfb, List.append_nil]
      · have ha3 : ∀ c ∈ a, targetQueue E repo.currentPool c ≠ Q := fun c hc e => ha ⟨c, hc, e⟩
        have hab : ∀ c ∈ a ++ b, targetQueue E repo.currentPool c ≠ Q := by
          intro c hc
          rcases List.mem_append.mp hc with h | h
          · exact ha3 c h
          · exact hb3 c h
        rw [EnqueueMany_untouched E repo a Q ha3, EnqueueMany_untouched E repo (a ++ b) Q hab]
  · have hfun : (EnqueueMany E (EnqueueMany E repo a) b).jctxsById =
        (EnqueueMany E repo (a ++ b)).jctxsById := by
      funext x
      rw [EnqueueMany_jctxsById, EnqueueMany_jctxsById, EnqueueMany_jctxsById,
        lastWithId_append]
      cases lastWithId b x <;> cases lastWithId a x <;> rfl
    simp only [GetExistingJobsByIds, hfun]

theorem orderedExternals_le (a b : Job) :
    orderedExternals.SchedulingOrderCompare a b ≤ 0 ↔ a.Id ≤ b.Id := by
  simp only [orderedExternals]
  rcases lt_trichotomy a.Id b.Id with h | h | h
  · simp [h, le_of_lt h]
  · simp [h]
  · simp [h, not_lt_of_gt h, not_le_of_gt h]

theorem orderedExternals_ge (a b : Job) :
    orderedExternals.SchedulingOrderCompare b a ≥ 0 ↔ a.Id ≤ b.Id := by
  simp only [orderedExternals]
  rcases lt_trichotomy a.Id b.Id with h | h | h
  · simp [h, not_lt_of_gt h, le_of_lt h]
  · simp [h]
  · simp [h, not_le_of_gt h]

theorem orderedExternals_preorder :
    IsTotalPreorder orderedExternals.SchedulingOrderCompare := by
  refine ⟨?_, ?_, ?_⟩
  · intro a b
    rw [orderedExternals_le, orderedExternals_ge]
  · intro a b
    rw [orderedExternals_le, orderedExternals_le]
    exact le_total _ _
  · intro a b c
    rw [orderedExternals_le, orderedExternals_le, orderedExternals_le]
    exact le_trans

theorem orderedExternals_id (a b : Job) (h : orderedExternals.SchedulingOrderCompare a b = 0) :
    a.Id = b.Id := by
  simp only [orderedExternals] at h
  rcases lt_trichotomy a.Id b.Id with h1 | h1 | h1
  · simp [h1] at h
  · exact h1
  · simp [h1, not_lt_of_gt h1] at h

theorem orderedExternals_permutes : SortFuncPermutes orderedExternals := by
  intro cmp l
  exact List.perm_insertionSort _ l

theorem orderedExternals_sorts : SortFuncSorts orderedExternals := by
  intro cmp h l
  haveI : IsTotal JobSchedulingContext (fun a b => cmp a b ≤ 0) := ⟨h.2.1⟩
  haveI : IsTrans JobSchedulingContext (fun a b => cmp a b ≤ 0) := ⟨h.2.2⟩
  exact List.sorted_insertionSort (fun a b => cmp a b ≤ 0) l

/-- Witness of C20: three contexts enqueued as `[b, a]` then `[c]`, and as the
single batch `[b, a, c]`, under the ordering of jobs by id. -/
theorem C20_batch_split_witness :
    SortFuncPermutes orderedExternals ∧ SortFuncSorts orderedExternals ∧
    IsTotalPreorder orderedExternals.SchedulingOrderCompare ∧
    (∀ j1 j2 : Job, orderedExternals.SchedulingOrderCompare j1 j2 = 0 → j1.Id = j2.Id) ∧
    (GetQueueJobIds (EnqueueMany orderedExternals
        (EnqueueMany orderedExternals (NewInMemoryJobRepository "A")
          [mkJctx 0 "b" "q" none, mkJctx 1 "a" "q" none])
        [mkJctx 2 "c" "q" none]) "q").1 =
      (GetQueueJobIds (EnqueueMany orderedExternals (NewInMemoryJobRepository "A")
        ([mkJctx 0 "b" "q" none, mkJctx 1 "a" "q" none] ++ [mkJctx 2 "c" "q" none])) "q").1 :=
  ⟨orderedExternals_permutes, orderedExternals_sorts, orderedExternals_preorder,
    orderedExternals_id,
    (C20_batch_split orderedExternals orderedExternals_permutes orderedExternals_sorts
      orderedExternals_preorder orderedExternals_id (NewInMemoryJobRepository "A")
      [mkJctx 0 "b" "q" none, mkJctx 1 "a" "q" none] [mkJctx 2 "c" "q" none] "q" []).1⟩

end Scheduling
